import Mathlib

/-!
The calendar event store of `calendar.c`.

A shallow embedding of the event store implemented in `calendar.c` and the
properties of its operations.

Representation.
* A chain of `Event` nodes linked through `next` is a `List Event`: the head of
  the list is the node the slot points to, the tail is what `next` points to,
  and `NULL` is the empty list.
* The `events` array of a calendar is a `List (List Event)`; the field `days`
  is kept as the separate integer the C structure stores, and `WF` says that it
  is the number of slots of the array.
* A `const char *` argument is an `Option String` (`none` is `NULL`), and
  `strcmp (a, b) == 0` is equality of strings.
* A `void *` payload is an `Option Nat` (`none` is `NULL`, `some a` the address).
* The comparator is a function of the two events it is called on; the destructor
  pointer `free_info_func` is an `Option` (`none` is `NULL`).
* An out parameter `Event **event` is an `Option (Option Event)`: `none` when the
  caller passes `NULL`, `some v` when the caller passes a cell that holds `v`;
  the function returns the content of the cell after the call.
* `malloc`/`calloc` results are Boolean arguments (`true`: the allocation
  succeeded).
* Calls of `free_info_func` are returned as the list of payloads it was called
  on, in call order.
* A function that mutates the calendar returns the calendar after the call.
  The calendar pointer itself is always present: the `calendar == NULL` guards
  have no counterpart. `int` values are integers; the day counter of
  `remove_event` is the one that can leave the range of `int` (at `INT_MAX`
  days), and its overflow is modelled. `total_events` would need more than
  `2^31 - 1` live events to leave the range.
-/

namespace Cal

/-- Modelled from the spec: the header `calendar.h` that defines the result
codes `SUCCESS` and `FAILURE` is absent; the spec says there are "two outcomes
only: success or failure". -/
inductive Status where
  | SUCCESS
  | FAILURE
deriving DecidableEq, Repr

open Status

/-- Modelled from the spec: the declaration of `Event` in `calendar.h` is absent;
the fields are the ones `calendar.c` reads and writes (`name`, `start_time`,
`duration_minutes`, `info`); the `next` link is the tail of the chain. -/
structure Event where
  name : String
  start_time : Int
  duration_minutes : Int
  info : Option Nat
deriving DecidableEq, Repr

/-- Modelled from the spec: the declaration of `Calendar` in `calendar.h` is
absent; the fields are the ones `calendar.c` reads and writes. -/
structure Calendar where
  name : String
  events : List (List Event)
  days : Int
  total_events : Int
  comp_func : Event → Event → Int
  free_info_func : Option (Nat → Unit)

/-- The chain that `calendar->events[i]` points to (0-based slot index). -/
def slot (calendar : Calendar) (i : Nat) : List Event :=
  calendar.events.getD i []

/-- The largest value of an `int` (32 bits). -/
def INT_MAX : Int := 2147483647

/-- The array holds exactly `days` slots, and `days`, an `int` field, is at most
`INT_MAX`. -/
def WF (calendar : Calendar) : Prop :=
  calendar.days = (calendar.events.length : Int) ∧ calendar.days ≤ INT_MAX

/-- `init_calendar`: the three Booleans are the results of the allocations
marked 1, 2 and 3 in the source. The out parameter `calendar` is always
supplied; the calendar it receives is returned, and is `none` on `FAILURE`. -/
def init_calendar (name : Option String) (days : Int)
    (comp_func : Event → Event → Int) (free_info_func : Option (Nat → Unit))
    (malloc_calendar malloc_name calloc_events : Bool) : Status × Option Calendar :=
  match name with
  | none => (FAILURE, none)
  | some n =>
    if days < 1 then (FAILURE, none)
    else if malloc_calendar = false then (FAILURE, none)
    else if malloc_name = false then (FAILURE, none)
    else if calloc_events = false then (FAILURE, none)
    else
      (SUCCESS, some
        { name := n
          events := List.replicate days.toNat []
          days := days
          total_events := 0
          comp_func := comp_func
          free_info_func := free_info_func })

/-- The scan `while (curr_event != NULL)` of one chain in `find_event` and
`find_event_in_day`: the first node whose name is `name`. -/
def find_in_chain (name : String) : List Event → Option Event
  | [] => none
  | curr_event :: next =>
    if curr_event.name = name then some curr_event else find_in_chain name next

/-- The loop `for (i = 0; i < calendar->days; i++)` of `find_event`, over the
slot indices still to visit. -/
def find_event_from (calendar : Calendar) (name : String) : List Nat → Option Event
  | [] => none
  | i :: rest =>
    match find_in_chain name (slot calendar i) with
    | some e => some e
    | none => find_event_from calendar name rest

/-- Writing a found node through the out parameter: nothing when the caller
passed `NULL`, else the cell now holds the node. -/
def write_out (event : Option (Option Event)) (found : Event) : Option (Option Event) :=
  match event with
  | none => none
  | some _ => some (some found)

/-- `find_event`. -/
def find_event (calendar : Calendar) (name : Option String)
    (event : Option (Option Event)) : Status × Option (Option Event) :=
  match name with
  | none => (FAILURE, event)
  | some n =>
    match find_event_from calendar n (List.range calendar.days.toNat) with
    | some e => (SUCCESS, write_out event e)
    | none => (FAILURE, event)

/-- `find_event_in_day`. -/
def find_event_in_day (calendar : Calendar) (name : Option String) (day : Int)
    (event : Option (Option Event)) : Status × Option (Option Event) :=
  match name with
  | none => (FAILURE, event)
  | some n =>
    if day < 1 ∨ day > calendar.days then (FAILURE, event)
    else
      match find_in_chain n (slot calendar (day - 1).toNat) with
      | some e => (SUCCESS, write_out event e)
      | none => (FAILURE, event)

/-- The insertion scan of `add_event`:
`while (curr != NULL && calendar->comp_func(event, curr) > 0)` followed by the
relinking; the result is the chain with `event` linked in. -/
def insert_event (comp_func : Event → Event → Int) (event : Event) :
    List Event → List Event
  | [] => [event]
  | curr :: next =>
    if comp_func event curr > 0 then curr :: insert_event comp_func event next
    else event :: curr :: next

/-- `add_event`: the two Booleans are the results of `malloc(sizeof(Event))` and
of the allocation of the name. -/
def add_event (calendar : Calendar) (name : Option String) (start_time : Int)
    (duration_minutes : Int) (info : Option Nat) (day : Int)
    (malloc_event malloc_name : Bool) : Status × Calendar :=
  match name with
  | none => (FAILURE, calendar)
  | some n =>
    if start_time < 0 ∨ start_time > 2400 ∨ duration_minutes ≤ 0 ∨ day < 1 ∨
        day > calendar.days then (FAILURE, calendar)
    else if (find_event calendar (some n) none).1 = SUCCESS then (FAILURE, calendar)
    else if malloc_event = false then (FAILURE, calendar)
    else if malloc_name = false then (FAILURE, calendar)
    else
      let event : Event :=
        { name := n, start_time := start_time, duration_minutes := duration_minutes,
          info := info }
      (SUCCESS,
        { calendar with
          events := calendar.events.set (day - 1).toNat
            (insert_event calendar.comp_func event (slot calendar (day - 1).toNat))
          total_events := calendar.total_events + 1 })

/-- `get_event_info`: `find_event` with no out parameter, then the same scan
again, returning the payload of the first node of that name. -/
def get_event_info (calendar : Calendar) (name : String) : Option Nat :=
  if (find_event calendar (some name) none).1 = SUCCESS then
    match find_event_from calendar name (List.range calendar.days.toNat) with
    | some event => event.info
    | none => none
  else none

/-- The unlink loop of `remove_event`,
`while (strcmp(curr_event->name, name) != 0)`, which has no end-of-chain test:
the node it stops at and the chain without that node, or `none` when it would
read through `NULL`. -/
def unlink (name : String) : List Event → Option (Event × List Event)
  | [] => none
  | curr_event :: next =>
    if curr_event.name ≠ name then
      match unlink name next with
      | none => none
      | some (found, chain) => some (found, curr_event :: chain)
    else some (curr_event, next)

/-- The destructor calls `remove_event` makes for the node it frees. -/
def free_calls (calendar : Calendar) (curr_event : Event) : List Nat :=
  match curr_event.info, calendar.free_info_func with
  | some p, some _ => [p]
  | _, _ => []

/-- The numbers `1, ..., days` the loop `while (day <= calendar->days)` of
`remove_event` runs through. -/
def day_numbers (days : Int) : List Int :=
  (List.range days.toNat).map (fun (i : Nat) => (i : Int) + 1)

/-- The loop `while (day <= calendar->days)` of `remove_event`, over the days
still to visit. The counter `day` is an `int`: when the name is not in the day
`INT_MAX`, the step `day++` overflows, which is undefined (with wrap-around the
loop would go on for ever), and there is no result. The result is `none` in
that case, and when the unlink loop reads through `NULL`. -/
def remove_event_from (calendar : Calendar) (name : String) :
    List Int → Option (Status × Calendar × List Nat)
  | [] => some (FAILURE, calendar, [])
  | day :: rest =>
    if (find_event_in_day calendar (some name) day none).1 = SUCCESS then
      match unlink name (slot calendar (day - 1).toNat) with
      | none => none
      | some (curr_event, chain) =>
        some (SUCCESS,
          { calendar with
            events := calendar.events.set (day - 1).toNat chain
            total_events := calendar.total_events - 1 },
          free_calls calendar curr_event)
    else if day = INT_MAX then none
    else remove_event_from calendar name rest

/-- `remove_event`: result code, calendar after the call and destructor calls
made; `none` when the call has no defined result: the unlink loop reads through
`NULL`, or `day++` overflows. -/
def remove_event (calendar : Calendar) (name : Option String) :
    Option (Status × Calendar × List Nat) :=
  match name with
  | none => some (FAILURE, calendar, [])
  | some n => remove_event_from calendar n (day_numbers calendar.days)

/-- The loop `while (curr != NULL)` of `clear_day` and `clear_calendar`
(`prev = curr; curr = curr->next; remove_event(calendar, prev->name)`), over the
nodes still to visit. `curr` is read before the call and `remove_event` deletes
the first node of that name in day and chain order, which is never a node after
`prev`, so the nodes visited are those of the chain as it was on entry. -/
def clear_chain (calendar : Calendar) : List Event → Option (Calendar × List Nat)
  | [] => some (calendar, [])
  | prev :: curr =>
    match remove_event calendar (some prev.name) with
    | none => none
    | some (_, calendar1, freed1) =>
      match clear_chain calendar1 curr with
      | none => none
      | some (calendar2, freed2) => some (calendar2, freed1 ++ freed2)

/-- `clear_day`. -/
def clear_day (calendar : Calendar) (day : Int) :
    Option (Status × Calendar × List Nat) :=
  if day < 1 ∨ day > calendar.days then some (FAILURE, calendar, [])
  else
    match clear_chain calendar (slot calendar (day - 1).toNat) with
    | none => none
    | some (calendar1, freed) =>
      some (SUCCESS,
        { calendar1 with events := calendar1.events.set (day - 1).toNat [] }, freed)

/-- The loop `for (i = 0; i < calendar->days; i++)` of `clear_calendar`, over
the slot indices still to visit. -/
def clear_calendar_from (calendar : Calendar) : List Nat → Option (Calendar × List Nat)
  | [] => some (calendar, [])
  | i :: rest =>
    match clear_chain calendar (slot calendar i) with
    | none => none
    | some (calendar1, freed1) =>
      match clear_calendar_from
          { calendar1 with events := calendar1.events.set i [] } rest with
      | none => none
      | some (calendar2, freed2) => some (calendar2, freed1 ++ freed2)

/-- `clear_calendar`. -/
def clear_calendar (calendar : Calendar) : Option (Status × Calendar × List Nat) :=
  match clear_calendar_from calendar (List.range calendar.days.toNat) with
  | none => none
  | some (calendar1, freed) =>
    some (SUCCESS, { calendar1 with total_events := 0 }, freed)

/-- `destroy_calendar`: `clear_calendar`, then the calendar is released; the
result code and the destructor calls made. -/
def destroy_calendar (calendar : Calendar) : Option (Status × List Nat) :=
  match clear_calendar calendar with
  | none => none
  | some (_, _, freed) => some (SUCCESS, freed)

/-- The lines `print_calendar` writes for one chain. -/
def print_chain : List Event → String
  | [] => ""
  | curr :: next =>
    "Event's Name: \"" ++ curr.name ++ "\", " ++
    "Start_time: " ++ toString curr.start_time ++ ", " ++
    "Duration: " ++ toString curr.duration_minutes ++ "\n" ++ print_chain next

/-- The loop `for (i = 0; i < calendar->days; i++)` of `print_calendar`. -/
def print_days (calendar : Calendar) : List Nat → String
  | [] => ""
  | i :: rest =>
    "Day " ++ toString ((i : Int) + 1) ++ "\n" ++ print_chain (slot calendar i) ++
      print_days calendar rest

/-- `print_calendar`: the result code and the text written to the stream, which
is always present. -/
def print_calendar (calendar : Calendar) (print_all : Int) : Status × String :=
  let header :=
    if print_all ≠ 0 then
      "Calendar's Name: \"" ++ calendar.name ++ "\"\n" ++
      "Days: " ++ toString calendar.days ++ "\n" ++
      "Total Events: " ++ toString calendar.total_events ++ "\n\n"
    else ""
  if calendar.total_events = 0 then (SUCCESS, header ++ "**** Events ****\n")
  else
    (SUCCESS, header ++ "**** Events ****\n" ++
      print_days calendar (List.range calendar.days.toNat))

/-- The names of all events of the calendar, in slot order and then chain
order. -/
def names (calendar : Calendar) : List String :=
  calendar.events.flatten.map Event.name

/-- The sum of the chain lengths of all slots. -/
def chain_total (calendar : Calendar) : Int :=
  ((calendar.events.map List.length).sum : Nat)

/-- The invariant of the store: the array has `days` slots, names are unique,
and `total_events` counts the events. -/
def Inv (calendar : Calendar) : Prop :=
  WF calendar ∧ (names calendar).Nodup ∧ calendar.total_events = chain_total calendar

/-- A comparator that is a consistent three-way ordering: exchanging the
arguments negates the sign of the result, and "not greater" is transitive. -/
def Consistent (comp_func : Event → Event → Int) : Prop :=
  (∀ a b, Int.sign (comp_func a b) = - Int.sign (comp_func b a)) ∧
  (∀ a b c, comp_func a b ≤ 0 → comp_func b c ≤ 0 → comp_func a c ≤ 0)

/-- Every chain is non-decreasing under the comparator of the calendar. -/
def Sorted (calendar : Calendar) : Prop :=
  ∀ ch ∈ calendar.events, ch.Pairwise (fun a b => calendar.comp_func a b ≤ 0)

/-- The calendars reachable from a successful `init_calendar` by calls of
`add_event`, `remove_event`, `clear_day` and `clear_calendar`, whatever result
code the calls return. The argument `days` of `init_calendar` is an `int`, so it
is at most `INT_MAX`. -/
inductive Reachable : Calendar → Prop where
  | init (name : Option String) (days : Int) (comp_func : Event → Event → Int)
      (free_info_func : Option (Nat → Unit)) (m1 m2 m3 : Bool) (calendar : Calendar) :
      days ≤ INT_MAX →
      init_calendar name days comp_func free_info_func m1 m2 m3 = (SUCCESS, some calendar) →
      Reachable calendar
  | add (calendar : Calendar) (name : Option String) (start_time duration_minutes : Int)
      (info : Option Nat) (day : Int) (m1 m2 : Bool) :
      Reachable calendar →
      Reachable (add_event calendar name start_time duration_minutes info day m1 m2).2
  | remove (calendar : Calendar) (name : Option String)
      (r : Status × Calendar × List Nat) :
      Reachable calendar → remove_event calendar name = some r → Reachable r.2.1
  | clear_day (calendar : Calendar) (day : Int) (r : Status × Calendar × List Nat) :
      Reachable calendar → clear_day calendar day = some r → Reachable r.2.1
  | clear_calendar (calendar : Calendar) (r : Status × Calendar × List Nat) :
      Reachable calendar → clear_calendar calendar = some r → Reachable r.2.1

/-- A comparator that orders events by ascending start time. -/
def by_start (a b : Event) : Int := a.start_time - b.start_time

/-- A freshly created three-day calendar ordered by start time. -/
def demo0 : Calendar :=
  { name := "cal", events := [[], [], []], days := 3, total_events := 0,
    comp_func := by_start, free_info_func := none }

/-- The calendar `demo0` after adding "Standup" to day 1. -/
def demo1 : Calendar := (add_event demo0 (some "Standup") 900 15 none 1 true true).2

/-- The calendar `demo1` after adding "Lunch" to day 1. -/
def demo2 : Calendar := (add_event demo1 (some "Lunch") 1200 60 none 1 true true).2

/-- The calendar `demo2` after adding "Review" to day 1. -/
def demo3 : Calendar := (add_event demo2 (some "Review") 1000 30 (some 7) 1 true true).2

/-- The calendar `demo3` after removing "Review". -/
def demo4 : Calendar :=
  { name := "cal"
    events :=
      [[{ name := "Standup", start_time := 900, duration_minutes := 15, info := none },
        { name := "Lunch", start_time := 1200, duration_minutes := 60, info := none }],
       [], []]
    days := 3
    total_events := 2
    comp_func := by_start
    free_info_func := none }

/-- The payloads of all events of the calendar that have one, in slot order and
then chain order. -/
def payloads (calendar : Calendar) : List Nat :=
  calendar.events.flatten.filterMap Event.info

/-- The destructor discipline of an operation that took the calendar from
`before` to `after` and made the destructor calls `freed`: there is a list
`removed` of events such that the events of `before` are those of `removed`
together with those of `after`; the calls are, in order, the present payloads of
the events of `removed`, one call for each, when a destructor is configured, and
there is no call when none is configured; and when no two events of `before`
share a payload, no payload of an event of `after` was passed to the
destructor. -/
def DestructorDiscipline (before after : Calendar) (freed : List Nat) : Prop :=
  ∃ removed : List Event,
    before.events.flatten.Perm (removed ++ after.events.flatten) ∧
    freed = (if before.free_info_func.isSome then removed.filterMap Event.info else []) ∧
    ((payloads before).Nodup →
      ∀ x ∈ after.events.flatten, ∀ p, x.info = some p → p ∉ freed)

/-- A freshly created one-day calendar ordered by start time, with a destructor
configured. -/
def shared0 : Calendar :=
  { name := "cal", events := [[]], days := 1, total_events := 0,
    comp_func := by_start, free_info_func := some (fun _ => ()) }

/-- The calendar `shared0` after adding "A" with payload 7 to day 1. -/
def shared1 : Calendar := (add_event shared0 (some "A") 900 15 (some 7) 1 true true).2

/-- The calendar `shared1` after adding "B" with the same payload 7 to day 1. -/
def shared2 : Calendar := (add_event shared1 (some "B") 1000 30 (some 7) 1 true true).2

/-- The calendar `shared2` after removing "A". -/
def shared3 : Calendar :=
  { name := "cal"
    events := [[{ name := "B", start_time := 1000, duration_minutes := 30, info := some 7 }]]
    days := 1
    total_events := 1
    comp_func := by_start
    free_info_func := some (fun _ => ()) }

/-- The calendar `shared1` after adding "C" with its own payload 8 to day 1. -/
def owned2 : Calendar := (add_event shared1 (some "C") 1000 30 (some 8) 1 true true).2

/-- Applying `clear_day` to every day of the list in turn, whatever result code
each call returns: the calendar after the last call and the destructor calls
made, in order. -/
def clear_days (calendar : Calendar) : List Int → Option (Calendar × List Nat)
  | [] => some (calendar, [])
  | day :: rest =>
    match clear_day calendar day with
    | none => none
    | some (_, calendar1, freed1) =>
      match clear_days calendar1 rest with
      | none => none
      | some (calendar2, freed2) => some (calendar2, freed1 ++ freed2)

/-- A list of lines as text: every line is followed by a newline. -/
def unlines : List String → String
  | [] => ""
  | line :: rest => line ++ "\n" ++ unlines rest

/-- The three header lines of the report and the blank line after them, as the
spec words them. -/
def header_lines (calendar : Calendar) : List String :=
  ["Calendar's Name: \"" ++ calendar.name ++ "\"",
   "Days: " ++ toString calendar.days,
   "Total Events: " ++ toString calendar.total_events,
   ""]

/-- The line of the report for one event, as the spec words it. -/
def event_line (event : Event) : String :=
  "Event's Name: \"" ++ event.name ++ "\", Start_time: " ++ toString event.start_time ++
    ", Duration: " ++ toString event.duration_minutes

/-- The lines of the report for one day: the day label, then one line for each
event of the chain in chain order. -/
def day_lines (day : Int) (chain : List Event) : List String :=
  ("Day " ++ toString day) :: chain.map event_line

/-- The lines of the report as the spec words it: the header lines when
`print_all` is non-zero, the section header, then the lines of every day from 1
to `days` in increasing order. -/
def report_lines (calendar : Calendar) (print_all : Int) : List String :=
  (if print_all ≠ 0 then header_lines calendar else []) ++ ["**** Events ****"] ++
    ((day_numbers calendar.days).map
      (fun day => day_lines day (slot calendar (day - 1).toNat))).flatten

/-- A freshly created calendar with `INT_MAX` days, ordered by start time. -/
def demo_max : Calendar :=
  { name := "cal", events := List.replicate 2147483647 [], days := 2147483647,
    total_events := 0, comp_func := by_start, free_info_func := none }

/-! ## Chains -/

theorem find_in_chain_eq_none (n : String) (l : List Event) :
    find_in_chain n l = none ↔ ∀ e ∈ l, e.name ≠ n := by
  induction l with
  | nil => simp [find_in_chain]
  | cons a l ih =>
    by_cases h : a.name = n
    · simp [find_in_chain, h]
    · simp [find_in_chain, h, ih]

theorem find_in_chain_split (n : String) (l : List Event) (e : Event)
    (h : find_in_chain n l = some e) :
    ∃ pre post, l = pre ++ e :: post ∧ e.name = n ∧ ∀ x ∈ pre, x.name ≠ n := by
  induction l with
  | nil => simp [find_in_chain] at h
  | cons a l ih =>
    by_cases ha : a.name = n
    · simp [find_in_chain, ha] at h
      subst h
      exact ⟨[], l, rfl, ha, by simp⟩
    · simp [find_in_chain, ha] at h
      obtain ⟨pre, post, h1, h2, h3⟩ := ih h
      refine ⟨a :: pre, post, by simp [h1], h2, ?_⟩
      intro x hx
      rcases List.mem_cons.1 hx with rfl | hx
      · exact ha
      · exact h3 x hx

theorem find_in_chain_of_split (n : String) (pre post : List Event) (e : Event)
    (he : e.name = n) (hpre : ∀ x ∈ pre, x.name ≠ n) :
    find_in_chain n (pre ++ e :: post) = some e := by
  induction pre with
  | nil => simp [find_in_chain, he]
  | cons a pre ih =>
    have ha : a.name ≠ n := hpre a (by simp)
    simp only [List.cons_append, find_in_chain, ha, if_false]
    exact ih (fun x hx => hpre x (by simp [hx]))

theorem find_in_chain_append (n : String) (l1 l2 : List Event) :
    find_in_chain n (l1 ++ l2) =
      match find_in_chain n l1 with
      | some e => some e
      | none => find_in_chain n l2 := by
  induction l1 with
  | nil => simp [find_in_chain]
  | cons a l ih =>
    by_cases h : a.name = n
    · simp [find_in_chain, h]
    · simp [find_in_chain, h, ih]

theorem unlink_of_split (n : String) (pre post : List Event) (e : Event)
    (he : e.name = n) (hpre : ∀ x ∈ pre, x.name ≠ n) :
    unlink n (pre ++ e :: post) = some (e, pre ++ post) := by
  induction pre with
  | nil => simp [unlink, he]
  | cons a pre ih =>
    have ha : a.name ≠ n := hpre a (by simp)
    have := ih (fun x hx => hpre x (by simp [hx]))
    simp [unlink, ha, this]

theorem insert_event_eq (comp_func : Event → Event → Int) (ev : Event) (l : List Event) :
    insert_event comp_func ev l =
      l.takeWhile (fun e => decide (comp_func ev e > 0)) ++
        ev :: l.dropWhile (fun e => decide (comp_func ev e > 0)) := by
  induction l with
  | nil => simp [insert_event]
  | cons a l ih =>
    by_cases h : comp_func ev a > 0
    · simp [insert_event, h, List.takeWhile, List.dropWhile, ih]
    · simp [insert_event, h, List.takeWhile, List.dropWhile]

theorem insert_event_perm (comp_func : Event → Event → Int) (ev : Event) (l : List Event) :
    (insert_event comp_func ev l).Perm (ev :: l) := by
  rw [insert_event_eq]
  refine List.perm_middle.trans ?_
  rw [List.takeWhile_append_dropWhile]

theorem insert_event_length (comp_func : Event → Event → Int) (ev : Event) (l : List Event) :
    (insert_event comp_func ev l).length = l.length + 1 := by
  simpa using (insert_event_perm comp_func ev l).length_eq

theorem insert_event_sorted (comp_func : Event → Event → Int) (hc : Consistent comp_func)
    (ev : Event) (l : List Event) (hl : l.Pairwise (fun a b => comp_func a b ≤ 0)) :
    (insert_event comp_func ev l).Pairwise (fun a b => comp_func a b ≤ 0) := by
  induction l with
  | nil => simp [insert_event]
  | cons a l ih =>
    rw [List.pairwise_cons] at hl
    by_cases h : comp_func ev a > 0
    · simp only [insert_event, h, if_true]
      rw [List.pairwise_cons]
      refine ⟨?_, ih hl.2⟩
      intro b hb
      rcases List.mem_cons.1 ((insert_event_perm comp_func ev l).mem_iff.1 hb) with hb | hb
      · subst hb
        have hs := hc.1 b a
        have h1 : Int.sign (comp_func b a) = 1 := Int.sign_eq_one_of_pos h
        rw [h1] at hs
        have h2 : Int.sign (comp_func a b) = -1 := by omega
        have := Int.sign_eq_neg_one_iff_neg.1 h2
        omega
      · exact hl.1 b hb
    · simp only [insert_event, h, if_false]
      rw [List.pairwise_cons, List.pairwise_cons]
      refine ⟨?_, hl.1, hl.2⟩
      intro b hb
      have h0 : comp_func ev a ≤ 0 := by omega
      rcases List.mem_cons.1 hb with rfl | hb
      · exact h0
      · exact hc.2 ev a b h0 (hl.1 b hb)

/-! ## Slots -/

theorem slot_at (c : Calendar) (L1 L2 : List (List Event)) (ch : List Event)
    (h : c.events = L1 ++ ch :: L2) : slot c L1.length = ch := by
  unfold slot
  rw [h, List.getD_append_right _ _ _ _ (le_refl _)]
  simp

theorem slot_mem (c : Calendar) (i : Nat) (h : i < c.events.length) :
    slot c i ∈ c.events := by
  simp [slot, List.getD_eq_getElem?_getD, List.getElem?_eq_getElem h]

theorem set_at (L1 L2 : List (List Event)) (ch x : List Event) :
    (L1 ++ ch :: L2).set L1.length x = L1 ++ x :: L2 := by
  simp [List.set_append_right]

theorem day_index (i : Nat) : (((i : Int) + 1) - 1).toNat = i := by
  simp

theorem find_event_in_day_eq (c : Calendar) (hwf : WF c) (n : String) (i : Nat)
    (hi : i < c.events.length) (out : Option (Option Event)) :
    find_event_in_day c (some n) ((i : Int) + 1) out =
      match find_in_chain n (slot c i) with
      | some e => (SUCCESS, write_out out e)
      | none => (FAILURE, out) := by
  have h1 : ¬ ((i : Int) + 1 < 1 ∨ (i : Int) + 1 > c.days) := by
    unfold WF at hwf
    omega
  simp only [find_event_in_day, h1, if_false, day_index]

theorem find_event_from_append (c : Calendar) (n : String) (is1 is2 : List Nat) :
    find_event_from c n (is1 ++ is2) =
      match find_event_from c n is1 with
      | some e => some e
      | none => find_event_from c n is2 := by
  induction is1 with
  | nil => simp [find_event_from]
  | cons i is1 ih =>
    simp only [List.cons_append, find_event_from]
    cases find_in_chain n (slot c i) with
    | none => simpa using ih
    | some e => simp

theorem find_event_from_range' (c : Calendar) (n : String) (L2 : List (List Event)) :
    ∀ L1 : List (List Event), c.events = L1 ++ L2 →
      find_event_from c n (List.range' L1.length L2.length) = find_in_chain n L2.flatten := by
  induction L2 with
  | nil => intro L1 _; simp [find_event_from, find_in_chain]
  | cons ch L2 ih =>
    intro L1 h
    have hs := slot_at c L1 L2 ch h
    have := ih (L1 ++ [ch]) (by simp [h])
    simp only [List.length_append, List.length_singleton] at this
    simp only [List.length_cons, List.range'_succ, find_event_from, hs, List.flatten_cons,
      find_in_chain_append, this]

theorem find_event_from_eq (c : Calendar) (hwf : WF c) (n : String) :
    find_event_from c n (List.range c.days.toNat) = find_in_chain n c.events.flatten := by
  have := find_event_from_range' c n c.events [] (by simp)
  have hlen := hwf.1
  simpa [hlen, List.range_eq_range'] using this

theorem find_event_eq (c : Calendar) (hwf : WF c) (n : String)
    (out : Option (Option Event)) :
    find_event c (some n) out =
      match find_in_chain n c.events.flatten with
      | some e => (SUCCESS, write_out out e)
      | none => (FAILURE, out) := by
  simp only [find_event, find_event_from_eq c hwf]

theorem no_name_iff (L : List (List Event)) (n : String) :
    (∀ ch ∈ L, ∀ e ∈ ch, e.name ≠ n) ↔ find_in_chain n L.flatten = none := by
  rw [find_in_chain_eq_none]
  constructor
  · intro h e he
    obtain ⟨ch, hch, hm⟩ := List.mem_flatten.1 he
    exact h ch hch e hm
  · intro h ch hch e he
    exact h e (List.mem_flatten.2 ⟨ch, hch, he⟩)

theorem no_name_iff_names (c : Calendar) (n : String) :
    (∀ ch ∈ c.events, ∀ e ∈ ch, e.name ≠ n) ↔ n ∉ names c := by
  simp only [names, List.mem_map, List.mem_flatten]
  constructor
  · rintro h ⟨e, ⟨ch, hch, he⟩, rfl⟩
    exact h ch hch e he rfl
  · intro h ch hch e he hn
    exact h ⟨e, ⟨ch, hch, he⟩, hn⟩

/-! ## `remove_event` -/

theorem find_event_in_day_absent (c : Calendar) (n : String)
    (h : ∀ ch ∈ c.events, ∀ e ∈ ch, e.name ≠ n) (d : Int) (out : Option (Option Event)) :
    find_event_in_day c (some n) d out = (FAILURE, out) := by
  simp only [find_event_in_day]
  split_ifs with hg
  · rfl
  · have hnone : find_in_chain n (slot c (d - 1).toNat) = none := by
      rw [find_in_chain_eq_none]
      by_cases hi : (d - 1).toNat < c.events.length
      · exact h _ (slot_mem c _ hi)
      · have : slot c (d - 1).toNat = [] := by
          unfold slot
          rw [List.getD_eq_getElem?_getD, List.getElem?_eq_none (by omega)]
          rfl
        rw [this]
        simp
    rw [hnone]

theorem wf_of_events (c c1 : Calendar) (hwf : WF c) (hd : c1.days = c.days)
    (hl : c1.events.length = c.events.length) : WF c1 := by
  unfold WF at hwf ⊢
  rw [hd, hl]
  exact hwf

theorem mem_day_numbers (days d : Int) : d ∈ day_numbers days ↔ 1 ≤ d ∧ d ≤ days := by
  unfold day_numbers
  rw [List.mem_map]
  constructor
  · rintro ⟨i, hi, rfl⟩
    rw [List.mem_range] at hi
    omega
  · rintro ⟨h1, h2⟩
    refine ⟨(d - 1).toNat, ?_, ?_⟩
    · rw [List.mem_range]
      omega
    · omega

theorem remove_event_from_skip (c : Calendar) (n : String) (ds1 ds2 : List Int)
    (h : ∀ d ∈ ds1, (find_event_in_day c (some n) d none).1 ≠ SUCCESS)
    (hmax : ∀ d ∈ ds1, d ≠ INT_MAX) :
    remove_event_from c n (ds1 ++ ds2) = remove_event_from c n ds2 := by
  induction ds1 with
  | nil => rfl
  | cons d ds1 ih =>
    have hd := h d (by simp)
    have hm := hmax d (by simp)
    simp only [List.cons_append, remove_event_from, hd, hm, if_false]
    exact ih (fun d' hd' => h d' (by simp [hd'])) (fun d' hd' => hmax d' (by simp [hd']))

theorem remove_event_from_absent (c : Calendar) (n : String)
    (h : ∀ ch ∈ c.events, ∀ e ∈ ch, e.name ≠ n) (ds : List Int) :
    remove_event_from c n ds = if INT_MAX ∈ ds then none else some (FAILURE, c, []) := by
  induction ds with
  | nil => simp [remove_event_from]
  | cons d ds ih =>
    have hf : ¬ (find_event_in_day c (some n) d none).1 = SUCCESS := by
      rw [find_event_in_day_absent c n h d none]
      decide
    by_cases hd : d = INT_MAX
    · subst hd
      simp only [remove_event_from, hf, if_false, if_true, List.mem_cons, true_or]
    · have hd2 : ¬ INT_MAX = d := fun h => hd h.symm
      simp only [remove_event_from, hf, hd, if_false, ih, List.mem_cons, hd2, false_or]

theorem day_numbers_split (a b : Nat) :
    day_numbers ((a + 1 + b : Nat) : Int) =
      (List.range a).map (fun (i : Nat) => (i : Int) + 1) ++
        ((a : Int) + 1) :: (List.range' (a + 1) b).map (fun (i : Nat) => (i : Int) + 1) := by
  have h : List.range (a + 1 + b) = List.range a ++ a :: List.range' (a + 1) b := by
    rw [List.range_eq_range', List.range_eq_range', ← List.range'_succ]
    have := List.range'_append 0 a (b + 1) 1
    simp only [one_mul, zero_add] at this
    rw [this]
    congr 1
    omega
  unfold day_numbers
  rw [Int.toNat_ofNat, h, List.map_append, List.map_cons]

theorem remove_event_fail (c : Calendar) (n : String) (hlt : c.days < INT_MAX)
    (h : ∀ ch ∈ c.events, ∀ e ∈ ch, e.name ≠ n) :
    remove_event c (some n) = some (FAILURE, c, []) := by
  have hno : INT_MAX ∉ day_numbers c.days := by
    rw [mem_day_numbers]
    omega
  simp only [remove_event, remove_event_from_absent c n h, hno, if_false]

theorem remove_event_overflow (c : Calendar) (n : String) (hle : INT_MAX ≤ c.days)
    (h : ∀ ch ∈ c.events, ∀ e ∈ ch, e.name ≠ n) :
    remove_event c (some n) = none := by
  have hin : INT_MAX ∈ day_numbers c.days := by
    rw [mem_day_numbers]
    exact ⟨by decide, hle⟩
  simp only [remove_event, remove_event_from_absent c n h, hin, if_true]

theorem remove_event_hit (c : Calendar) (hwf : WF c) (L1 L2 : List (List Event))
    (pre post : List Event) (e : Event) (h : c.events = L1 ++ (pre ++ e :: post) :: L2)
    (hL1 : ∀ ch ∈ L1, ∀ x ∈ ch, x.name ≠ e.name) (hpre : ∀ x ∈ pre, x.name ≠ e.name) :
    remove_event c (some e.name) =
      some (SUCCESS,
        { c with events := L1 ++ (pre ++ post) :: L2, total_events := c.total_events - 1 },
        free_calls c e) := by
  have hlen : c.events.length = L1.length + 1 + L2.length := by simp [h]; omega
  have hdays : c.days = ((L1.length + 1 + L2.length : Nat) : Int) := by
    rw [hwf.1, hlen]
  have hbound := hwf.2
  have hs := slot_at c L1 L2 _ h
  have hdn := day_numbers_split L1.length L2.length
  rw [← hdays] at hdn
  simp only [remove_event, hdn]
  rw [remove_event_from_skip]
  · have hfd := find_event_in_day_eq c hwf e.name L1.length (by omega) none
    rw [hs, find_in_chain_of_split e.name pre post e rfl hpre] at hfd
    simp only [remove_event_from, hfd, day_index, hs,
      unlink_of_split e.name pre post e rfl hpre, if_true]
    rw [h, set_at]
  · intro d hd
    rw [List.mem_map] at hd
    obtain ⟨i, hi, rfl⟩ := hd
    rw [List.mem_range] at hi
    have hi' : i < c.events.length := by omega
    rw [find_event_in_day_eq c hwf e.name i hi']
    have hmem : slot c i ∈ L1 := by
      simp only [slot, h, List.getD_eq_getElem?_getD, List.getElem?_append_left hi]
      simp [List.getElem?_eq_getElem hi]
    have : find_in_chain e.name (slot c i) = none :=
      (find_in_chain_eq_none _ _).2 (hL1 _ hmem)
    simp [this]
  · intro d hd
    rw [List.mem_map] at hd
    obtain ⟨i, hi, rfl⟩ := hd
    rw [List.mem_range] at hi
    push_cast at hdays
    omega

theorem first_match_split (n : String) (L : List (List Event))
    (h : ∃ ch ∈ L, ∃ x ∈ ch, x.name = n) :
    ∃ L1 pre e post L2, L = L1 ++ (pre ++ e :: post) :: L2 ∧ e.name = n ∧
      (∀ x ∈ pre, x.name ≠ n) ∧ (∀ ch ∈ L1, ∀ x ∈ ch, x.name ≠ n) := by
  induction L with
  | nil => simp at h
  | cons ch L ih =>
    cases hf : find_in_chain n ch with
    | some e =>
      obtain ⟨pre, post, h1, h2, h3⟩ := find_in_chain_split n ch e hf
      exact ⟨[], pre, e, post, L, by simp [h1], h2, h3, by simp⟩
    | none =>
      have hno := (find_in_chain_eq_none n ch).1 hf
      have h' : ∃ ch ∈ L, ∃ x ∈ ch, x.name = n := by
        obtain ⟨ch', hch', x, hx, hxn⟩ := h
        rcases List.mem_cons.1 hch' with rfl | hch'
        · exact absurd hxn (hno x hx)
        · exact ⟨ch', hch', x, hx, hxn⟩
      obtain ⟨L1, pre, e, post, L2, h1, h2, h3, h4⟩ := ih h'
      refine ⟨ch :: L1, pre, e, post, L2, by simp [h1], h2, h3, ?_⟩
      intro ch' hch'
      rcases List.mem_cons.1 hch' with rfl | hch'
      · exact hno
      · exact h4 ch' hch'

/-! ## `add_event` -/

theorem split_at {α : Type} (L : List α) (i : Nat) (h : i < L.length) :
    ∃ L1 x L2, L = L1 ++ x :: L2 ∧ L1.length = i := by
  refine ⟨L.take i, L[i], L.drop (i + 1), ?_, ?_⟩
  · rw [← List.drop_eq_getElem_cons h, List.take_append_drop]
  · simp [List.length_take]; omega

theorem add_event_cases (c : Calendar) (name : Option String) (st dur : Int)
    (info : Option Nat) (day : Int) (m1 m2 : Bool) :
    add_event c name st dur info day m1 m2 = (FAILURE, c) ∨
    ∃ n, name = some n ∧ 0 ≤ st ∧ st ≤ 2400 ∧ 0 < dur ∧ 1 ≤ day ∧ day ≤ c.days ∧
      (find_event c (some n) none).1 ≠ SUCCESS ∧ m1 = true ∧ m2 = true ∧
      add_event c name st dur info day m1 m2 =
        (SUCCESS,
          { c with
            events := c.events.set (day - 1).toNat
              (insert_event c.comp_func
                { name := n, start_time := st, duration_minutes := dur, info := info }
                (slot c (day - 1).toNat))
            total_events := c.total_events + 1 }) := by
  cases name with
  | none => left; rfl
  | some n =>
    by_cases hg : st < 0 ∨ st > 2400 ∨ dur ≤ 0 ∨ day < 1 ∨ day > c.days
    · left; simp only [add_event, hg, if_true]
    · by_cases hf : (find_event c (some n) none).1 = SUCCESS
      · left; simp only [add_event, hg, hf, if_true, if_false]
      · cases m1 with
        | false => left; simp only [add_event, hg, hf, if_true, if_false]
        | true =>
          cases m2 with
          | false => left; simp [add_event, hg, hf]
          | true =>
            right
            refine ⟨n, rfl, by omega, by omega, by omega, by omega, by omega, hf, rfl, rfl, ?_⟩
            simp [add_event, hg, hf]

theorem find_event_status (c : Calendar) (hwf : WF c) (n : String)
    (out : Option (Option Event)) :
    (find_event c (some n) out).1 ≠ SUCCESS ↔ ∀ ch ∈ c.events, ∀ e ∈ ch, e.name ≠ n := by
  rw [find_event_eq c hwf, no_name_iff]
  cases find_in_chain n c.events.flatten <;> simp

theorem add_event_success (c : Calendar) (hwf : WF c) (name : Option String) (st dur : Int)
    (info : Option Nat) (day : Int) (m1 m2 : Bool)
    (h : (add_event c name st dur info day m1 m2).1 = SUCCESS) :
    ∃ n L1 ch L2, name = some n ∧ c.events = L1 ++ ch :: L2 ∧ (day - 1).toNat = L1.length ∧
      (∀ ch ∈ c.events, ∀ e ∈ ch, e.name ≠ n) ∧
      (add_event c name st dur info day m1 m2).2 =
        { c with
          events := L1 ++ insert_event c.comp_func
            { name := n, start_time := st, duration_minutes := dur, info := info } ch :: L2
          total_events := c.total_events + 1 } := by
  rcases add_event_cases c name st dur info day m1 m2 with hc | hc
  · rw [hc] at h; cases h
  · obtain ⟨n, hn, _, _, _, hd1, hd2, hf, _, _, heq⟩ := hc
    have hi : (day - 1).toNat < c.events.length := by unfold WF at hwf; omega
    obtain ⟨L1, ch, L2, hL, hlen⟩ := split_at c.events _ hi
    refine ⟨n, L1, ch, L2, hn, hL, hlen.symm, (find_event_status c hwf n none).1 hf, ?_⟩
    rw [heq]
    have hs := slot_at c L1 L2 ch hL
    rw [hlen] at hs
    simp only [hs]
    rw [hL, ← hlen, set_at]

/-! ## The invariant -/

theorem names_of (c : Calendar) (L : List (List Event)) (h : c.events = L) :
    names c = L.flatten.map Event.name := by
  simp [names, h]

theorem names_sublist (c c1 : Calendar) (L1 L2 : List (List Event)) (ch ch1 : List Event)
    (h : c.events = L1 ++ ch :: L2) (h1 : c1.events = L1 ++ ch1 :: L2)
    (hs : ch1.Sublist ch) : (names c1).Sublist (names c) := by
  rw [names_of c _ h, names_of c1 _ h1]
  simp only [List.flatten_append, List.flatten_cons, List.map_append]
  exact List.Sublist.append (List.Sublist.refl _)
    (List.Sublist.append (hs.map _) (List.Sublist.refl _))

theorem chain_total_of (c : Calendar) (L1 L2 : List (List Event)) (ch : List Event)
    (h : c.events = L1 ++ ch :: L2) :
    chain_total c = ((L1.map List.length).sum : Nat) + (ch.length : Nat) +
      ((L2.map List.length).sum : Nat) := by
  simp [chain_total, h]
  omega

theorem inv_add (c : Calendar) (hinv : Inv c) (name : Option String) (st dur : Int)
    (info : Option Nat) (day : Int) (m1 m2 : Bool) :
    Inv (add_event c name st dur info day m1 m2).2 := by
  rcases add_event_cases c name st dur info day m1 m2 with hc | hc
  · rw [hc]; exact hinv
  · obtain ⟨n, hn, _, _, _, _, _, _, _, _, heq⟩ := hc
    have hst : (add_event c name st dur info day m1 m2).1 = SUCCESS := by rw [heq]
    obtain ⟨n', L1, ch, L2, hn', hL, _, hno, hres⟩ :=
      add_event_success c hinv.1 name st dur info day m1 m2 hst
    rw [hres]
    obtain ⟨hwf, hnd, htot⟩ := hinv
    refine ⟨?_, ?_, ?_⟩
    · exact wf_of_events c _ hwf rfl (by simp [hL])
    · have hp : (names { c with
          events := L1 ++ insert_event c.comp_func
            { name := n', start_time := st, duration_minutes := dur, info := info } ch :: L2
          total_events := c.total_events + 1 }).Perm (n' :: names c) := by
        rw [names_of c _ hL, names_of _ _ rfl]
        simp only [List.flatten_append, List.flatten_cons, List.map_append]
        have h1 := (insert_event_perm c.comp_func
          { name := n', start_time := st, duration_minutes := dur, info := info } ch).map
            Event.name
        simp only [List.map_cons] at h1
        refine ((List.Perm.append_left _ (List.Perm.append_right _ h1))).trans ?_
        simp only [List.cons_append]
        exact List.perm_middle
      rw [hp.nodup_iff, List.nodup_cons]
      exact ⟨(no_name_iff_names c n').1 hno, hnd⟩
    · rw [chain_total_of _ L1 L2 _ rfl, insert_event_length]
      simp only [htot, chain_total_of c L1 L2 ch hL]
      push_cast
      omega

/-! ## Removing and clearing -/

theorem remove_event_cases (c : Calendar) (hwf : WF c) (name : Option String) :
    remove_event c name = some (FAILURE, c, []) ∧
      (∀ n, name = some n → ∀ ch ∈ c.events, ∀ e ∈ ch, e.name ≠ n) ∨
    (∃ L1 pre e post L2, name = some e.name ∧ c.events = L1 ++ (pre ++ e :: post) :: L2 ∧
      (∀ ch ∈ L1, ∀ x ∈ ch, x.name ≠ e.name) ∧ (∀ x ∈ pre, x.name ≠ e.name) ∧
      remove_event c name =
        some (SUCCESS,
          { c with events := L1 ++ (pre ++ post) :: L2, total_events := c.total_events - 1 },
          free_calls c e)) ∨
    remove_event c name = none ∧ c.days = INT_MAX ∧
      ∃ n, name = some n ∧ ∀ ch ∈ c.events, ∀ e ∈ ch, e.name ≠ n := by
  cases name with
  | none => left; exact ⟨rfl, by intro n hn; cases hn⟩
  | some n =>
    by_cases h : ∃ ch ∈ c.events, ∃ x ∈ ch, x.name = n
    · right; left
      obtain ⟨L1, pre, e, post, L2, h1, h2, h3, h4⟩ := first_match_split n c.events h
      subst h2
      exact ⟨L1, pre, e, post, L2, rfl, h1, h4, h3, remove_event_hit c hwf L1 L2 pre post e h1 h4 h3⟩
    · have h' : ∀ ch ∈ c.events, ∀ e ∈ ch, e.name ≠ n := by
        intro ch hch e he hn
        exact h ⟨ch, hch, e, he, hn⟩
      by_cases hlt : c.days < INT_MAX
      · left
        refine ⟨remove_event_fail c n hlt h', ?_⟩
        intro n' hn'
        cases hn'
        exact h'
      · right; right
        have hb := hwf.2
        exact ⟨remove_event_overflow c n (by omega) h', by omega, n, rfl, h'⟩

theorem remove_event_cases_some (c : Calendar) (hwf : WF c) (name : Option String)
    (r : Status × Calendar × List Nat) (h : remove_event c name = some r) :
    remove_event c name = some (FAILURE, c, []) ∧
      (∀ n, name = some n → ∀ ch ∈ c.events, ∀ e ∈ ch, e.name ≠ n) ∨
    ∃ L1 pre e post L2, name = some e.name ∧ c.events = L1 ++ (pre ++ e :: post) :: L2 ∧
      (∀ ch ∈ L1, ∀ x ∈ ch, x.name ≠ e.name) ∧ (∀ x ∈ pre, x.name ≠ e.name) ∧
      remove_event c name =
        some (SUCCESS,
          { c with events := L1 ++ (pre ++ post) :: L2, total_events := c.total_events - 1 },
          free_calls c e) := by
  rcases remove_event_cases c hwf name with hc | hc | ⟨hc, _⟩
  · exact Or.inl hc
  · exact Or.inr hc
  · rw [hc] at h
    cases h

theorem clear_chain_spec (ch : List Event) :
    ∀ (c : Calendar) (L1 L2 : List (List Event)), WF c → (names c).Nodup →
      c.events = L1 ++ ch :: L2 →
      clear_chain c ch =
        some ({ c with events := L1 ++ [] :: L2,
                       total_events := c.total_events - (ch.length : Nat) },
          (ch.map (free_calls c)).flatten) := by
  induction ch with
  | nil =>
    intro c L1 L2 _ _ h
    cases c
    simp only at h
    simp [clear_chain, h]
  | cons e rest ih =>
    intro c L1 L2 hwf hnd h
    have hL1 : ∀ ch' ∈ L1, ∀ x ∈ ch', x.name ≠ e.name := by
      intro ch' hch' x hx hxe
      rw [names_of c _ h] at hnd
      simp only [List.flatten_append, List.flatten_cons, List.map_append, List.map_cons,
        List.cons_append] at hnd
      have hd := (List.nodup_append.1 hnd).2.2
      have h1 : x.name ∈ List.map Event.name L1.flatten :=
        List.mem_map.2 ⟨x, List.mem_flatten.2 ⟨ch', hch', hx⟩, rfl⟩
      exact hd h1 (by rw [hxe]; simp)
    have hrem := remove_event_hit c hwf L1 L2 [] rest e (by simpa using h) hL1 (by simp)
    simp only [List.nil_append] at hrem
    have hwf1 : WF { c with events := L1 ++ rest :: L2, total_events := c.total_events - 1 } := by
      exact wf_of_events c _ hwf rfl (by simp [h])
    have hnd1 : (names
        { c with events := L1 ++ rest :: L2, total_events := c.total_events - 1 }).Nodup :=
      hnd.sublist (names_sublist c _ L1 L2 (e :: rest) rest h rfl (List.sublist_cons_self _ _))
    have hrec := ih _ L1 L2 hwf1 hnd1 rfl
    simp only [clear_chain, hrem, hrec]
    simp only [List.map_cons, List.flatten_cons, List.length_cons, free_calls]
    congr 3
    push_cast
    omega

theorem clear_day_spec (c : Calendar) (hwf : WF c) (hnd : (names c).Nodup)
    (L1 L2 : List (List Event)) (ch : List Event) (h : c.events = L1 ++ ch :: L2) :
    clear_day c ((L1.length : Int) + 1) =
      some (SUCCESS,
        { c with events := L1 ++ [] :: L2,
                 total_events := c.total_events - (ch.length : Nat) },
        (ch.map (free_calls c)).flatten) := by
  have hg : ¬ ((L1.length : Int) + 1 < 1 ∨ (L1.length : Int) + 1 > c.days) := by
    rw [hwf.1, h]
    simp only [List.length_append, List.length_cons]
    push_cast
    omega
  simp only [clear_day, hg, if_false, day_index, slot_at c L1 L2 ch h,
    clear_chain_spec ch c L1 L2 hwf hnd h, set_at]

theorem clear_day_cases (c : Calendar) (hwf : WF c) (hnd : (names c).Nodup) (day : Int) :
    (day < 1 ∨ day > c.days) ∧ clear_day c day = some (FAILURE, c, []) ∨
    ∃ L1 ch L2, c.events = L1 ++ ch :: L2 ∧ day = (L1.length : Int) + 1 ∧
      clear_day c day =
        some (SUCCESS,
          { c with events := L1 ++ [] :: L2,
                   total_events := c.total_events - (ch.length : Nat) },
          (ch.map (free_calls c)).flatten) := by
  by_cases hg : day < 1 ∨ day > c.days
  · left; exact ⟨hg, by simp only [clear_day, hg, if_true]⟩
  · right
    have hi : (day - 1).toNat < c.events.length := by unfold WF at hwf; omega
    obtain ⟨L1, ch, L2, hL, hlen⟩ := split_at c.events _ hi
    have hd : day = (L1.length : Int) + 1 := by omega
    exact ⟨L1, ch, L2, hL, hd, by rw [hd]; exact clear_day_spec c hwf hnd L1 L2 ch hL⟩

theorem clear_calendar_from_spec (L2 : List (List Event)) :
    ∀ (c : Calendar) (E : List (List Event)), WF c → (names c).Nodup → c.events = E ++ L2 →
      clear_calendar_from c (List.range' E.length L2.length) =
        some ({ c with events := E ++ List.replicate L2.length [],
                       total_events := c.total_events - ((L2.map List.length).sum : Nat) },
          (L2.map (fun ch => (ch.map (free_calls c)).flatten)).flatten) := by
  induction L2 with
  | nil =>
    intro c E _ _ h
    cases c
    simp only at h
    simp [clear_calendar_from, h]
  | cons ch L2 ih =>
    intro c E hwf hnd h
    have hcc := clear_chain_spec ch c E L2 hwf hnd h
    have hwf1 : WF
        { c with events := E ++ [] :: L2, total_events := c.total_events - (ch.length : Nat) } := by
      exact wf_of_events c _ hwf rfl (by simp [h])
    have hnd1 : (names
        { c with events := E ++ [] :: L2,
                 total_events := c.total_events - (ch.length : Nat) }).Nodup :=
      hnd.sublist (names_sublist c _ E L2 ch [] h rfl (List.nil_sublist _))
    have hrec := ih _ (E ++ [[]]) hwf1 hnd1 (by simp)
    simp only [List.length_append, List.length_singleton] at hrec
    simp only [List.length_cons, List.range'_succ, clear_calendar_from, slot_at c E L2 ch h,
      hcc, set_at, hrec]
    simp only [List.map_cons, List.flatten_cons, List.sum_cons, free_calls,
      List.replicate_succ, List.append_assoc, List.singleton_append]
    congr 3
    push_cast
    omega

theorem clear_calendar_spec (c : Calendar) (hwf : WF c) (hnd : (names c).Nodup) :
    clear_calendar c =
      some (SUCCESS,
        { c with events := List.replicate c.events.length [], total_events := 0 },
        (c.events.map (fun ch => (ch.map (free_calls c)).flatten)).flatten) := by
  have h := clear_calendar_from_spec c.events c [] hwf hnd (by simp)
  have hr : List.range c.days.toNat = List.range' 0 c.events.length := by
    rw [hwf.1, Int.toNat_ofNat, List.range_eq_range']
  simp only [List.length_nil] at h
  simp only [clear_calendar, hr, h, List.nil_append]

/-! ## Reachable stores -/

theorem inv_init (name : Option String) (days : Int) (comp_func : Event → Event → Int)
    (free_info_func : Option (Nat → Unit)) (m1 m2 m3 : Bool) (c : Calendar)
    (hb : days ≤ INT_MAX)
    (h : init_calendar name days comp_func free_info_func m1 m2 m3 = (SUCCESS, some c)) :
    Inv c ∧ c.events = List.replicate c.events.length [] := by
  cases name with
  | none => simp [init_calendar] at h
  | some n =>
    simp only [init_calendar] at h
    split_ifs at h with h1 h2 h3 h4 <;>
      simp only [Prod.mk.injEq, reduceCtorEq, false_and, true_and, Option.some.injEq] at h
    subst h
    refine ⟨⟨?_, ?_, ?_⟩, by simp⟩
    · unfold WF
      refine ⟨?_, hb⟩
      simp
      omega
    · simp [names]
    · simp [chain_total]

theorem inv_remove (c : Calendar) (hinv : Inv c) (name : Option String)
    (r : Status × Calendar × List Nat) (h : remove_event c name = some r) : Inv r.2.1 := by
  rcases remove_event_cases_some c hinv.1 name r h with ⟨hc, _⟩ | hc
  · rw [hc] at h
    cases h
    exact hinv
  · obtain ⟨L1, pre, e, post, L2, _, hL, _, _, hres⟩ := hc
    rw [hres] at h
    cases h
    obtain ⟨hwf, hnd, htot⟩ := hinv
    refine ⟨?_, ?_, ?_⟩
    · exact wf_of_events c _ hwf rfl (by simp [hL])
    · exact hnd.sublist (names_sublist c _ L1 L2 _ _ hL rfl
        (List.Sublist.append (List.Sublist.refl _) (List.sublist_cons_self _ _)))
    · rw [chain_total_of _ L1 L2 _ rfl]
      simp only [htot, chain_total_of c L1 L2 _ hL, List.length_append, List.length_cons]
      push_cast
      omega

theorem inv_clear_day (c : Calendar) (hinv : Inv c) (day : Int)
    (r : Status × Calendar × List Nat) (h : clear_day c day = some r) : Inv r.2.1 := by
  rcases clear_day_cases c hinv.1 hinv.2.1 day with ⟨_, hc⟩ | hc
  · rw [hc] at h
    cases h
    exact hinv
  · obtain ⟨L1, ch, L2, hL, _, hres⟩ := hc
    rw [hres] at h
    cases h
    obtain ⟨hwf, hnd, htot⟩ := hinv
    refine ⟨?_, ?_, ?_⟩
    · exact wf_of_events c _ hwf rfl (by simp [hL])
    · exact hnd.sublist (names_sublist c _ L1 L2 _ _ hL rfl (List.nil_sublist _))
    · rw [chain_total_of _ L1 L2 _ rfl]
      simp only [htot, chain_total_of c L1 L2 _ hL, List.length_nil]
      push_cast
      omega

theorem inv_clear_calendar (c : Calendar) (hinv : Inv c)
    (r : Status × Calendar × List Nat) (h : clear_calendar c = some r) : Inv r.2.1 := by
  rw [clear_calendar_spec c hinv.1 hinv.2.1] at h
  cases h
  obtain ⟨hwf, _, _⟩ := hinv
  refine ⟨?_, ?_, ?_⟩
  · exact wf_of_events c _ hwf rfl (by simp)
  · simp [names]
  · simp [chain_total]

theorem reachable_inv (c : Calendar) (h : Reachable c) : Inv c := by
  induction h with
  | init name days comp_func free_info_func m1 m2 m3 calendar hb h =>
    exact (inv_init name days comp_func free_info_func m1 m2 m3 calendar hb h).1
  | add calendar name st dur info day m1 m2 _ ih =>
    exact inv_add calendar ih name st dur info day m1 m2
  | remove calendar name r _ h ih => exact inv_remove calendar ih name r h
  | clear_day calendar day r _ h ih => exact inv_clear_day calendar ih day r h
  | clear_calendar calendar r _ h ih => exact inv_clear_calendar calendar ih r h

theorem sorted_of_sublists (c c1 : Calendar) (L1 L2 : List (List Event)) (ch ch1 : List Event)
    (h : c.events = L1 ++ ch :: L2) (h1 : c1.events = L1 ++ ch1 :: L2)
    (hcomp : c1.comp_func = c.comp_func)
    (hch : ch.Pairwise (fun a b => c.comp_func a b ≤ 0) →
      ch1.Pairwise (fun a b => c.comp_func a b ≤ 0))
    (hs : Sorted c) : Sorted c1 := by
  intro x hx
  rw [hcomp]
  rw [h1] at hx
  have hin : ∀ y, y ∈ L1 ∨ y ∈ L2 → y ∈ c.events := by
    intro y hy
    rw [h]
    rcases hy with hy | hy
    · exact List.mem_append_left _ hy
    · exact List.mem_append_right _ (List.mem_cons_of_mem _ hy)
  rcases List.mem_append.1 hx with hx | hx
  · exact hs x (hin x (Or.inl hx))
  · rcases List.mem_cons.1 hx with rfl | hx
    · exact hch (hs ch (by rw [h]; simp))
    · exact hs x (hin x (Or.inr hx))

theorem reachable_sorted (c : Calendar) (h : Reachable c) :
    Consistent c.comp_func → Sorted c := by
  induction h with
  | init name days comp_func free_info_func m1 m2 m3 calendar hb h =>
    intro _ ch hch
    rw [(inv_init name days comp_func free_info_func m1 m2 m3 calendar hb h).2] at hch
    rw [List.eq_of_mem_replicate hch]
    exact List.Pairwise.nil
  | add calendar name st dur info day m1 m2 hr ih =>
    intro hcons
    rcases add_event_cases calendar name st dur info day m1 m2 with hc | hc
    · rw [hc] at hcons ⊢
      exact ih hcons
    · obtain ⟨n, hn, _, _, _, _, _, _, _, _, heq⟩ := hc
      have hst : (add_event calendar name st dur info day m1 m2).1 = SUCCESS := by rw [heq]
      obtain ⟨n', L1, ch, L2, _, hL, _, _, hres⟩ :=
        add_event_success calendar (reachable_inv calendar hr).1 name st dur info day m1 m2 hst
      rw [hres] at hcons ⊢
      exact sorted_of_sublists calendar _ L1 L2 ch _ hL rfl rfl
        (insert_event_sorted calendar.comp_func hcons _ ch) (ih hcons)
  | remove calendar name r hr h ih =>
    intro hcons
    rcases remove_event_cases_some calendar (reachable_inv calendar hr).1 name r h with
      ⟨hc, _⟩ | hc
    · rw [hc] at h
      cases h
      exact ih hcons
    · obtain ⟨L1, pre, e, post, L2, _, hL, _, _, hres⟩ := hc
      rw [hres] at h
      cases h
      exact sorted_of_sublists calendar _ L1 L2 _ _ hL rfl rfl
        (List.Pairwise.sublist
          (List.Sublist.append (List.Sublist.refl _) (List.sublist_cons_self _ _)))
        (ih hcons)
  | clear_day calendar day r hr h ih =>
    intro hcons
    have hinv := reachable_inv calendar hr
    rcases clear_day_cases calendar hinv.1 hinv.2.1 day with ⟨_, hc⟩ | hc
    · rw [hc] at h
      cases h
      exact ih hcons
    · obtain ⟨L1, ch, L2, hL, _, hres⟩ := hc
      rw [hres] at h
      cases h
      exact sorted_of_sublists calendar _ L1 L2 _ _ hL rfl rfl
        (fun _ => List.Pairwise.nil) (ih hcons)
  | clear_calendar calendar r hr h ih =>
    intro _ ch hch
    have hinv := reachable_inv calendar hr
    rw [clear_calendar_spec calendar hinv.1 hinv.2.1] at h
    cases h
    rw [List.eq_of_mem_replicate hch]
    exact List.Pairwise.nil

/-! ## Totality and frame lemmas -/

theorem find_event_in_day_status (c : Calendar) (n : String) (d : Int)
    (h : (find_event_in_day c (some n) d none).1 = SUCCESS) :
    ∃ e, find_in_chain n (slot c (d - 1).toNat) = some e := by
  cases hf : find_in_chain n (slot c (d - 1).toNat) with
  | some e => exact ⟨e, rfl⟩
  | none =>
    simp only [find_event_in_day, hf] at h
    split_ifs at h

theorem remove_event_from_failure (c : Calendar) (n : String) (ds : List Int)
    (r : Status × Calendar × List Nat) (h : remove_event_from c n ds = some r)
    (hf : r.1 = FAILURE) : r.2.1 = c ∧ r.2.2 = [] := by
  induction ds with
  | nil =>
    simp only [remove_event_from, Option.some.injEq] at h
    subst h
    exact ⟨rfl, rfl⟩
  | cons d ds ih =>
    by_cases hs : (find_event_in_day c (some n) d none).1 = SUCCESS
    · obtain ⟨e, he⟩ := find_event_in_day_status c n d hs
      obtain ⟨pre, post, h1, h2, h3⟩ := find_in_chain_split n _ e he
      have hu := unlink_of_split n pre post e h2 h3
      rw [← h1] at hu
      simp only [remove_event_from, hs, if_true, hu, Option.some.injEq] at h
      subst h
      cases hf
    · by_cases hd : d = INT_MAX
      · subst hd
        simp [remove_event_from, hs] at h
      · simp only [remove_event_from, hs, hd, if_false] at h
        exact ih h

theorem remove_event_failure (c : Calendar) (name : Option String)
    (r : Status × Calendar × List Nat) (h : remove_event c name = some r)
    (hf : r.1 = FAILURE) : r.2.1 = c ∧ r.2.2 = [] := by
  cases name with
  | none =>
    simp only [remove_event, Option.some.injEq] at h
    subst h
    exact ⟨rfl, rfl⟩
  | some n => exact remove_event_from_failure c n _ r h hf

theorem remove_event_from_none (c : Calendar) (n : String) (ds : List Int)
    (h : remove_event_from c n ds = none) :
    INT_MAX ∈ ds ∧ (find_event_in_day c (some n) INT_MAX none).1 ≠ SUCCESS := by
  induction ds with
  | nil => simp [remove_event_from] at h
  | cons d ds ih =>
    by_cases hs : (find_event_in_day c (some n) d none).1 = SUCCESS
    · obtain ⟨e, he⟩ := find_event_in_day_status c n d hs
      obtain ⟨pre, post, h1, h2, h3⟩ := find_in_chain_split n _ e he
      have hu := unlink_of_split n pre post e h2 h3
      rw [← h1] at hu
      simp only [remove_event_from, hs, if_true, hu] at h
      cases h
    · by_cases hd : d = INT_MAX
      · subst hd
        exact ⟨List.mem_cons_self _ _, hs⟩
      · simp only [remove_event_from, hs, hd, if_false] at h
        exact ⟨List.mem_cons_of_mem _ (ih h).1, (ih h).2⟩

theorem remove_event_none (c : Calendar) (name : Option String)
    (h : remove_event c name = none) :
    INT_MAX ≤ c.days ∧
      ∃ n, name = some n ∧ (find_event_in_day c (some n) INT_MAX none).1 ≠ SUCCESS := by
  cases name with
  | none => simp [remove_event] at h
  | some n =>
    have := remove_event_from_none c n _ h
    exact ⟨((mem_day_numbers c.days INT_MAX).1 this.1).2, n, rfl, this.2⟩

theorem remove_event_returns (c : Calendar) (name : Option String)
    (hlt : c.days < INT_MAX) : ∃ r, remove_event c name = some r := by
  cases h : remove_event c name with
  | some r => exact ⟨r, rfl⟩
  | none =>
    have := (remove_event_none c name h).1
    omega

theorem slot_set_ne (c : Calendar) (i j : Nat) (x : List Event) (h : j ≠ i) :
    (c.events.set i x).getD j [] = slot c j := by
  unfold slot
  rw [List.getD_eq_getElem?_getD, List.getD_eq_getElem?_getD, List.getElem?_set_ne (Ne.symm h)]

theorem sublist_without_first (x e : Event) (r post : List Event) :
    ∀ pre : List Event, x ∉ pre → (x :: r).Sublist (pre ++ e :: post) →
      r.Sublist (pre ++ post) := by
  intro pre
  induction pre with
  | nil =>
    intro _ h
    cases h with
    | cons _ h1 => exact (List.sublist_cons_self x r).trans h1
    | cons₂ _ h1 => exact h1
  | cons a p ih =>
    intro hx h
    have hxp : x ∉ p := fun hm => hx (List.mem_cons_of_mem _ hm)
    cases h with
    | cons _ h1 => exact (ih hxp h1).cons a
    | cons₂ _ h1 => exact absurd (List.mem_cons_self _ _) hx

theorem clear_chain_returns (rest : List Event) :
    ∀ (c : Calendar) (i : Nat), WF c → rest.Sublist (slot c i) →
      ∃ r, clear_chain c rest = some r := by
  induction rest with
  | nil => intro c i _ _; exact ⟨_, rfl⟩
  | cons x rest ih =>
    intro c i hwf hsub
    have hx : x ∈ slot c i := hsub.subset (List.mem_cons_self _ _)
    have hi : i < c.events.length := by
      by_contra hge
      have : slot c i = [] := by
        unfold slot
        rw [List.getD_eq_getElem?_getD, List.getElem?_eq_none (by omega)]
        rfl
      rw [this] at hx
      cases hx
    have hpres : ¬ ∀ ch ∈ c.events, ∀ y ∈ ch, y.name ≠ x.name :=
      fun hall => hall _ (slot_mem c i hi) x hx rfl
    rcases remove_event_cases c hwf (some x.name) with ⟨_, hno⟩ | hc | ⟨_, _, n, hn, hno⟩
    · exact absurd (hno x.name rfl) hpres
    · obtain ⟨L1, pre, e, post, L2, hn, hL, hL1, hpre, hres⟩ := hc
      have hname : x.name = e.name := Option.some.inj hn
      have hwf1 := wf_of_events c
        { c with events := L1 ++ (pre ++ post) :: L2, total_events := c.total_events - 1 }
        hwf rfl (by simp [hL])
      have key : ∀ c1 : Calendar, c1.events = L1 ++ (pre ++ post) :: L2 →
          rest.Sublist (slot c1 i) := by
        intro c1 hc1
        by_cases hi1 : i = L1.length
        · have h1 : slot c i = pre ++ e :: post := by
            rw [hi1]
            exact slot_at c L1 L2 _ hL
          have h2 : slot c1 i = pre ++ post := by
            rw [hi1]
            exact slot_at c1 L1 L2 _ hc1
          rw [h2]
          rw [h1] at hsub
          refine sublist_without_first x e rest post pre ?_ hsub
          intro hm
          exact hpre x hm hname
        · have h3 : slot c1 i = slot c i := by
            unfold slot
            rw [hc1, ← set_at L1 L2 (pre ++ e :: post) (pre ++ post), ← hL]
            exact slot_set_ne c L1.length i _ hi1
          rw [h3]
          exact (List.sublist_cons_self x rest).trans hsub
      obtain ⟨r2, hr2⟩ := ih _ i hwf1 (key _ rfl)
      have hfin : clear_chain c (x :: rest) = some (r2.1, free_calls c e ++ r2.2) := by
        simp only [clear_chain, hres, hr2]
      exact ⟨_, hfin⟩
    · cases hn
      exact absurd hno hpres

theorem clear_day_returns (c : Calendar) (hwf : WF c) (day : Int) :
    ∃ r, clear_day c day = some r := by
  by_cases hg : day < 1 ∨ day > c.days
  · exact ⟨(FAILURE, c, []), by simp only [clear_day, hg, if_true]⟩
  · obtain ⟨r, hr⟩ := clear_chain_returns (slot c (day - 1).toNat) c (day - 1).toNat hwf
      (List.Sublist.refl _)
    have hres : clear_day c day =
        some (SUCCESS, { r.1 with events := r.1.events.set (day - 1).toNat [] }, r.2) := by
      simp only [clear_day, hg, if_false, hr]
    exact ⟨_, hres⟩

theorem clear_day_failure (c : Calendar) (day : Int) (r : Status × Calendar × List Nat)
    (h : clear_day c day = some r) (hf : r.1 = FAILURE) : r.2.1 = c ∧ r.2.2 = [] := by
  by_cases hg : day < 1 ∨ day > c.days
  · simp only [clear_day, hg, if_true, Option.some.injEq] at h
    subst h
    exact ⟨rfl, rfl⟩
  · simp only [clear_day, hg, if_false] at h
    cases hcc : clear_chain c (slot c (day - 1).toNat) with
    | none => rw [hcc] at h; cases h
    | some r1 =>
      rw [hcc] at h
      simp only [Option.some.injEq] at h
      subst h
      cases hf

theorem find_event_failure (c : Calendar) (name : Option String)
    (out : Option (Option Event)) (h : (find_event c name out).1 = FAILURE) :
    (find_event c name out).2 = out := by
  cases name with
  | none => rfl
  | some n =>
    simp only [find_event] at h ⊢
    cases hf : find_event_from c n (List.range c.days.toNat) with
    | none => rfl
    | some e => rw [hf] at h; cases h

theorem find_event_in_day_failure (c : Calendar) (name : Option String) (day : Int)
    (out : Option (Option Event)) (h : (find_event_in_day c name day out).1 = FAILURE) :
    (find_event_in_day c name day out).2 = out := by
  cases name with
  | none => rfl
  | some n =>
    simp only [find_event_in_day] at h ⊢
    split_ifs at h ⊢ with hg
    · rfl
    · cases hf : find_in_chain n (slot c (day - 1).toNat) with
      | none => rfl
      | some e => rw [hf] at h; cases h

theorem find_event_absent (c : Calendar) (hwf : WF c) (n : String)
    (h : ∀ ch ∈ c.events, ∀ e ∈ ch, e.name ≠ n) (out : Option (Option Event)) :
    find_event c (some n) out = (FAILURE, out) := by
  rw [find_event_eq c hwf, (no_name_iff c.events n).1 h]

theorem consistent_by_start : Consistent by_start := by
  refine ⟨?_, ?_⟩
  · intro a b
    have h : by_start a b = - by_start b a := by unfold by_start; omega
    rw [h, Int.sign_neg]
  · intro a b c h1 h2
    unfold by_start at *
    omega

theorem reachable_demo0 : Reachable demo0 :=
  Reachable.init (some "cal") 3 by_start none true true true demo0 (by decide) rfl

theorem reachable_demo1 : Reachable demo1 :=
  Reachable.add demo0 (some "Standup") 900 15 none 1 true true reachable_demo0

theorem reachable_demo2 : Reachable demo2 :=
  Reachable.add demo1 (some "Lunch") 1200 60 none 1 true true reachable_demo1

theorem reachable_demo3 : Reachable demo3 :=
  Reachable.add demo2 (some "Review") 1000 30 (some 7) 1 true true reachable_demo2

theorem wf_demo3 : WF demo3 := (reachable_inv demo3 reachable_demo3).1

/-! ## The claims -/

/-- Claim C1. Name uniqueness is an invariant of the store: in every store
reachable from a successful `init_calendar` by calls of `add_event`,
`remove_event`, `clear_day` and `clear_calendar`, any two events at different
positions of the store, in the same day or in different days, have different
names. -/
theorem names_unique (c : Calendar) (h : Reachable c) :
    c.events.flatten.Pairwise (fun a b => a.name ≠ b.name) := by
  have hnd := (reachable_inv c h).2.1
  unfold names List.Nodup at hnd
  exact List.pairwise_map.1 hnd

theorem names_unique_witness :
    Reachable demo3 ∧ demo3.events.flatten.Pairwise (fun a b => a.name ≠ b.name) :=
  ⟨reachable_demo3, names_unique demo3 reachable_demo3⟩

/-- Claim C2. Count invariant: in every reachable store `total_events` is the
sum of the chain lengths of all day-slots; and `clear_day` on a day of the store
returns `SUCCESS` with `total_events` lowered by exactly the length of the chain
of that day. -/
theorem count_invariant (c : Calendar) (h : Reachable c) :
    c.total_events = chain_total c ∧
    ∀ day : Int, 1 ≤ day → day ≤ c.days →
      ∃ c1 freed, clear_day c day = some (SUCCESS, c1, freed) ∧
        c1.total_events = c.total_events - ((slot c (day - 1).toNat).length : Nat) ∧
        c1.total_events = chain_total c1 := by
  have hinv := reachable_inv c h
  refine ⟨hinv.2.2, ?_⟩
  intro day h1 h2
  rcases clear_day_cases c hinv.1 hinv.2.1 day with ⟨hg, _⟩ | hc
  · omega
  · obtain ⟨L1, ch, L2, hL, hd, hres⟩ := hc
    have hs : slot c (day - 1).toNat = ch := by
      rw [hd, day_index]
      exact slot_at c L1 L2 ch hL
    refine ⟨_, _, hres, by rw [hs], ?_⟩
    exact (inv_clear_day c hinv day _ hres).2.2

theorem count_invariant_witness :
    Reachable demo3 ∧ demo3.total_events = chain_total demo3 ∧
    ∀ day : Int, 1 ≤ day → day ≤ demo3.days →
      ∃ c1 freed, clear_day demo3 day = some (SUCCESS, c1, freed) ∧
        c1.total_events = demo3.total_events - ((slot demo3 (day - 1).toNat).length : Nat) ∧
        c1.total_events = chain_total c1 :=
  ⟨reachable_demo3, count_invariant demo3 reachable_demo3⟩

/-- Claim C3. Ordering invariant: when the comparator is a consistent three-way
ordering, every chain of a reachable store is non-decreasing under it: for any
two events `a` before `b` in the same chain, `comp_func a b ≤ 0`. -/
theorem chains_sorted (c : Calendar) (h : Reachable c) (hc : Consistent c.comp_func) :
    ∀ ch ∈ c.events, ch.Pairwise (fun a b => c.comp_func a b ≤ 0) :=
  reachable_sorted c h hc

theorem chains_sorted_witness :
    Reachable demo3 ∧ Consistent demo3.comp_func ∧
    ∀ ch ∈ demo3.events, ch.Pairwise (fun a b => demo3.comp_func a b ≤ 0) :=
  ⟨reachable_demo3, consistent_by_start,
    chains_sorted demo3 reachable_demo3 consistent_by_start⟩

/-- Claim C4. Insertion position: after a successful `add_event` the chain of the
day is the longest leading run of the old chain whose elements `e` satisfy
`comp_func new e > 0`, then the new event with exactly the given name, start
time, duration and payload, then the rest of the old chain; every other slot is
unchanged, and `total_events` grows by one. -/
theorem add_event_position (c : Calendar) (hwf : WF c) (name : Option String)
    (st dur : Int) (info : Option Nat) (day : Int) (m1 m2 : Bool)
    (h : (add_event c name st dur info day m1 m2).1 = SUCCESS) :
    ∃ n, name = some n ∧
      slot (add_event c name st dur info day m1 m2).2 (day - 1).toNat =
        (slot c (day - 1).toNat).takeWhile
            (fun e => decide (c.comp_func
              { name := n, start_time := st, duration_minutes := dur, info := info } e > 0)) ++
          { name := n, start_time := st, duration_minutes := dur, info := info } ::
          (slot c (day - 1).toNat).dropWhile
            (fun e => decide (c.comp_func
              { name := n, start_time := st, duration_minutes := dur, info := info } e > 0)) ∧
      (∀ j, j ≠ (day - 1).toNat →
        slot (add_event c name st dur info day m1 m2).2 j = slot c j) ∧
      (add_event c name st dur info day m1 m2).2.events.length = c.events.length ∧
      (add_event c name st dur info day m1 m2).2.total_events = c.total_events + 1 := by
  obtain ⟨n, L1, ch, L2, hn, hL, hi, _, hres⟩ :=
    add_event_success c hwf name st dur info day m1 m2 h
  have hs := slot_at c L1 L2 ch hL
  refine ⟨n, hn, ?_, ?_, ?_, ?_⟩
  · rw [hres, hi, hs, ← insert_event_eq]
    exact slot_at _ L1 L2 _ rfl
  · intro j hj
    rw [hres]
    have := slot_set_ne c (day - 1).toNat j
      (insert_event c.comp_func
        { name := n, start_time := st, duration_minutes := dur, info := info } ch) hj
    rw [hL, hi, set_at] at this
    rw [← this]
    rfl
  · rw [hres, hL]
    simp
  · rw [hres]

theorem add_event_position_witness :
    WF demo2 ∧ (add_event demo2 (some "Review") 1000 30 (some 7) 1 true true).1 = SUCCESS ∧
    ∃ n, some "Review" = some n ∧
      slot (add_event demo2 (some "Review") 1000 30 (some 7) 1 true true).2 ((1 : Int) - 1).toNat =
        (slot demo2 ((1 : Int) - 1).toNat).takeWhile
            (fun e => decide (demo2.comp_func
              { name := n, start_time := 1000, duration_minutes := 30, info := some 7 } e > 0)) ++
          { name := n, start_time := 1000, duration_minutes := 30, info := some 7 } ::
          (slot demo2 ((1 : Int) - 1).toNat).dropWhile
            (fun e => decide (demo2.comp_func
              { name := n, start_time := 1000, duration_minutes := 30, info := some 7 } e > 0)) ∧
      (∀ j, j ≠ ((1 : Int) - 1).toNat →
        slot (add_event demo2 (some "Review") 1000 30 (some 7) 1 true true).2 j = slot demo2 j) ∧
      (add_event demo2 (some "Review") 1000 30 (some 7) 1 true true).2.events.length =
        demo2.events.length ∧
      (add_event demo2 (some "Review") 1000 30 (some 7) 1 true true).2.total_events =
        demo2.total_events + 1 :=
  ⟨(reachable_inv demo2 reachable_demo2).1, by decide,
    add_event_position demo2 (reachable_inv demo2 reachable_demo2).1 (some "Review") 1000 30
      (some 7) 1 true true (by decide)⟩

/-- Claim C5, refuted as stated. "Scrum" is added to a day that holds "Standup" with
the same start time, so the comparator reports the two as equal; the call
succeeds and the new event is linked in before the existing equal event, not
after it. -/
theorem tie_not_stable :
    by_start { name := "Scrum", start_time := 900, duration_minutes := 5, info := none }
      { name := "Standup", start_time := 900, duration_minutes := 15, info := none } = 0 ∧
    slot demo1 0 =
      [{ name := "Standup", start_time := 900, duration_minutes := 15, info := none }] ∧
    (add_event demo1 (some "Scrum") 900 5 none 1 true true).1 = SUCCESS ∧
    slot (add_event demo1 (some "Scrum") 900 5 none 1 true true).2 0 =
      [{ name := "Scrum", start_time := 900, duration_minutes := 5, info := none },
       { name := "Standup", start_time := 900, duration_minutes := 15, info := none }] ∧
    slot (add_event demo1 (some "Scrum") 900 5 none 1 true true).2 0 ≠
      [{ name := "Standup", start_time := 900, duration_minutes := 15, info := none },
       { name := "Scrum", start_time := 900, duration_minutes := 5, info := none }] := by
  decide

theorem dropWhile_not_greater (comp_func : Event → Event → Int) (hc : Consistent comp_func)
    (ev : Event) (l : List Event) (hl : l.Pairwise (fun a b => comp_func a b ≤ 0)) :
    ∀ e ∈ l.dropWhile (fun e => decide (comp_func ev e > 0)), comp_func ev e ≤ 0 := by
  induction l with
  | nil => intro e he; simp at he
  | cons a l ih =>
    rw [List.pairwise_cons] at hl
    by_cases h : comp_func ev a > 0
    · simpa [List.dropWhile, h] using ih hl.2
    · intro e he
      simp only [List.dropWhile, h, decide_False] at he
      have h0 : comp_func ev a ≤ 0 := by omega
      rcases List.mem_cons.1 he with rfl | he
      · exact h0
      · exact hc.2 ev a e h0 (hl.1 e he)

/-- Claim C5, amended. In a reachable store whose comparator is a consistent
three-way ordering, a successful `add_event` links the new event into the chain
of the day at one place: directly after the longest leading run of entries that
the comparator reports as strictly lesser (`comp_func new e > 0`). Every existing
entry before it is strictly lesser and every existing entry after it is equal or
greater (`comp_func new e ≤ 0`); so the new event comes after every strictly
lesser entry and before every existing event that the comparator reports as
equal to it. -/
theorem add_event_before_equals (c : Calendar) (hr : Reachable c)
    (hc : Consistent c.comp_func) (name : Option String)
    (st dur : Int) (info : Option Nat) (day : Int) (m1 m2 : Bool)
    (h : (add_event c name st dur info day m1 m2).1 = SUCCESS) :
    ∃ n pre post, name = some n ∧
      slot c (day - 1).toNat = pre ++ post ∧
      slot (add_event c name st dur info day m1 m2).2 (day - 1).toNat =
        pre ++ { name := n, start_time := st, duration_minutes := dur, info := info } :: post ∧
      pre = (slot c (day - 1).toNat).takeWhile (fun e => decide (c.comp_func
        { name := n, start_time := st, duration_minutes := dur, info := info } e > 0)) ∧
      (∀ e ∈ pre, c.comp_func
        { name := n, start_time := st, duration_minutes := dur, info := info } e > 0) ∧
      (∀ e ∈ post, c.comp_func
        { name := n, start_time := st, duration_minutes := dur, info := info } e ≤ 0) ∧
      (∀ e ∈ slot c (day - 1).toNat, c.comp_func
        { name := n, start_time := st, duration_minutes := dur, info := info } e > 0 →
        e ∈ pre ∧ e ∉ post) ∧
      (∀ e ∈ slot c (day - 1).toNat, c.comp_func
        { name := n, start_time := st, duration_minutes := dur, info := info } e ≤ 0 →
        e ∈ post ∧ e ∉ pre) := by
  have hwf := (reachable_inv c hr).1
  obtain ⟨n, L1, ch, L2, hn, hL, hi, _, hres⟩ :=
    add_event_success c hwf name st dur info day m1 m2 h
  have hs := slot_at c L1 L2 ch hL
  have hsorted : ch.Pairwise (fun a b => c.comp_func a b ≤ 0) :=
    reachable_sorted c hr hc ch (by rw [hL]; simp)
  have hpre : ∀ e ∈ ch.takeWhile (fun e => decide (c.comp_func
      { name := n, start_time := st, duration_minutes := dur, info := info } e > 0)),
      c.comp_func { name := n, start_time := st, duration_minutes := dur, info := info } e > 0 := by
    intro e he
    simpa using List.mem_takeWhile_imp he
  have hpost := dropWhile_not_greater c.comp_func hc
    { name := n, start_time := st, duration_minutes := dur, info := info } ch hsorted
  have hsplit := List.takeWhile_append_dropWhile (fun e => decide (c.comp_func
    { name := n, start_time := st, duration_minutes := dur, info := info } e > 0)) ch
  refine ⟨n, ch.takeWhile (fun e => decide (c.comp_func
      { name := n, start_time := st, duration_minutes := dur, info := info } e > 0)),
    ch.dropWhile (fun e => decide (c.comp_func
      { name := n, start_time := st, duration_minutes := dur, info := info } e > 0)),
    hn, ?_, ?_, ?_, hpre, hpost, ?_, ?_⟩
  · rw [hi, hs]
    exact hsplit.symm
  · rw [hres, hi, ← insert_event_eq]
    exact slot_at _ L1 L2 _ rfl
  · rw [hi, hs]
  · intro e he hgt
    rw [hi, hs] at he
    have hnot : e ∉ ch.dropWhile (fun e => decide (c.comp_func
        { name := n, start_time := st, duration_minutes := dur, info := info } e > 0)) := by
      intro hm
      have := hpost e hm
      omega
    refine ⟨?_, hnot⟩
    rw [← hsplit] at he
    rcases List.mem_append.1 he with he | he
    · exact he
    · exact absurd he hnot
  · intro e he hle
    rw [hi, hs] at he
    have hnot : e ∉ ch.takeWhile (fun e => decide (c.comp_func
        { name := n, start_time := st, duration_minutes := dur, info := info } e > 0)) := by
      intro hm
      have := hpre e hm
      omega
    refine ⟨?_, hnot⟩
    rw [← hsplit] at he
    rcases List.mem_append.1 he with he | he
    · exact absurd he hnot
    · exact he

theorem add_event_before_equals_witness :
    Reachable demo3 ∧ Consistent demo3.comp_func ∧
    (add_event demo3 (some "Sync") 1000 20 none 1 true true).1 = SUCCESS ∧
    ∃ n pre post, some "Sync" = some n ∧
      slot demo3 ((1 : Int) - 1).toNat = pre ++ post ∧
      slot (add_event demo3 (some "Sync") 1000 20 none 1 true true).2 ((1 : Int) - 1).toNat =
        pre ++ { name := n, start_time := 1000, duration_minutes := 20, info := none } :: post ∧
      pre = (slot demo3 ((1 : Int) - 1).toNat).takeWhile (fun e => decide (demo3.comp_func
        { name := n, start_time := 1000, duration_minutes := 20, info := none } e > 0)) ∧
      (∀ e ∈ pre, demo3.comp_func
        { name := n, start_time := 1000, duration_minutes := 20, info := none } e > 0) ∧
      (∀ e ∈ post, demo3.comp_func
        { name := n, start_time := 1000, duration_minutes := 20, info := none } e ≤ 0) ∧
      (∀ e ∈ slot demo3 ((1 : Int) - 1).toNat, demo3.comp_func
        { name := n, start_time := 1000, duration_minutes := 20, info := none } e > 0 →
        e ∈ pre ∧ e ∉ post) ∧
      (∀ e ∈ slot demo3 ((1 : Int) - 1).toNat, demo3.comp_func
        { name := n, start_time := 1000, duration_minutes := 20, info := none } e ≤ 0 →
        e ∈ post ∧ e ∉ pre) :=
  ⟨reachable_demo3, consistent_by_start, by decide,
    add_event_before_equals demo3 reachable_demo3 consistent_by_start (some "Sync") 1000 20
      none 1 true true (by decide)⟩

/-- Claim C6. With the name present and no allocation failure, `add_event`
returns `SUCCESS` exactly when `0 ≤ start_time ≤ 2400`, `duration_minutes > 0`,
`1 ≤ day ≤ days` and no event of any day-slot has that name; otherwise it
returns `FAILURE`. -/
theorem add_event_success_iff (c : Calendar) (hwf : WF c) (n : String) (st dur : Int)
    (info : Option Nat) (day : Int) :
    ((add_event c (some n) st dur info day true true).1 = SUCCESS ↔
      (0 ≤ st ∧ st ≤ 2400 ∧ 0 < dur ∧ 1 ≤ day ∧ day ≤ c.days ∧
        ∀ ch ∈ c.events, ∀ e ∈ ch, e.name ≠ n)) ∧
    ((add_event c (some n) st dur info day true true).1 = FAILURE ↔
      ¬ (0 ≤ st ∧ st ≤ 2400 ∧ 0 < dur ∧ 1 ≤ day ∧ day ≤ c.days ∧
        ∀ ch ∈ c.events, ∀ e ∈ ch, e.name ≠ n)) := by
  have key : (add_event c (some n) st dur info day true true).1 = SUCCESS ↔
      (0 ≤ st ∧ st ≤ 2400 ∧ 0 < dur ∧ 1 ≤ day ∧ day ≤ c.days ∧
        ∀ ch ∈ c.events, ∀ e ∈ ch, e.name ≠ n) := by
    constructor
    · intro h
      rcases add_event_cases c (some n) st dur info day true true with hc | hc
      · rw [hc] at h; cases h
      · obtain ⟨n', hn', h1, h2, h3, h4, h5, hf, _⟩ := hc
        cases hn'
        exact ⟨h1, h2, h3, h4, h5, (find_event_status c hwf n none).1 hf⟩
    · rintro ⟨h1, h2, h3, h4, h5, hno⟩
      have hg : ¬ (st < 0 ∨ st > 2400 ∨ dur ≤ 0 ∨ day < 1 ∨ day > c.days) := by omega
      have hf : ¬ (find_event c (some n) none).1 = SUCCESS :=
        (find_event_status c hwf n none).2 hno
      simp [add_event, hg, hf]
  refine ⟨key, ?_⟩
  rw [← key]
  cases (add_event c (some n) st dur info day true true).1 <;> simp

theorem add_event_success_iff_witness :
    WF demo3 ∧
    (((add_event demo3 (some "Dinner") 1900 60 none 2 true true).1 = SUCCESS ↔
      (0 ≤ (1900 : Int) ∧ (1900 : Int) ≤ 2400 ∧ 0 < (60 : Int) ∧ 1 ≤ (2 : Int) ∧
        (2 : Int) ≤ demo3.days ∧ ∀ ch ∈ demo3.events, ∀ e ∈ ch, e.name ≠ "Dinner")) ∧
    ((add_event demo3 (some "Dinner") 1900 60 none 2 true true).1 = FAILURE ↔
      ¬ (0 ≤ (1900 : Int) ∧ (1900 : Int) ≤ 2400 ∧ 0 < (60 : Int) ∧ 1 ≤ (2 : Int) ∧
        (2 : Int) ≤ demo3.days ∧ ∀ ch ∈ demo3.events, ∀ e ∈ ch, e.name ≠ "Dinner"))) :=
  ⟨wf_demo3, add_event_success_iff demo3 wf_demo3 "Dinner" 1900 60 none 2⟩

/-- Claim C7. Failure atomicity: when `add_event`, `remove_event` or `clear_day`
returns `FAILURE` the calendar after the call is the calendar before it, and
`remove_event` and `clear_day` made no destructor call (`clear_day` returns on
every store, `remove_event` on every store with fewer than `INT_MAX` days);
when `find_event` or `find_event_in_day` returns `FAILURE` the caller's out
parameter is as it was (they have no other state to write); in particular
`add_event` with a name that some event of the store already has returns
`FAILURE` and leaves `total_events` unchanged. -/
theorem failure_atomic (c : Calendar) (name : Option String) (st dur : Int)
    (info : Option Nat) (day : Int) (m1 m2 : Bool) (out : Option (Option Event)) :
    ((add_event c name st dur info day m1 m2).1 = FAILURE →
      (add_event c name st dur info day m1 m2).2 = c) ∧
    (∀ r, remove_event c name = some r → r.1 = FAILURE → r.2.1 = c ∧ r.2.2 = []) ∧
    (c.days < INT_MAX → ∃ r, remove_event c name = some r) ∧
    (∀ r, clear_day c day = some r → r.1 = FAILURE → r.2.1 = c ∧ r.2.2 = []) ∧
    (WF c → ∃ r, clear_day c day = some r) ∧
    ((find_event c name out).1 = FAILURE → (find_event c name out).2 = out) ∧
    ((find_event_in_day c name day out).1 = FAILURE →
      (find_event_in_day c name day out).2 = out) ∧
    (WF c → (∃ ch ∈ c.events, ∃ e ∈ ch, some e.name = name) →
      (add_event c name st dur info day m1 m2).1 = FAILURE ∧
      (add_event c name st dur info day m1 m2).2.total_events = c.total_events) := by
  have hadd : (add_event c name st dur info day m1 m2).1 = FAILURE →
      (add_event c name st dur info day m1 m2).2 = c := by
    intro h
    rcases add_event_cases c name st dur info day m1 m2 with hc | hc
    · rw [hc]
    · obtain ⟨n, _, _, _, _, _, _, _, _, _, heq⟩ := hc
      rw [heq] at h
      cases h
  refine ⟨hadd, remove_event_failure c name, remove_event_returns c name,
    clear_day_failure c day, fun hwf => clear_day_returns c hwf day,
    find_event_failure c name out, find_event_in_day_failure c name day out, ?_⟩
  rintro hwf ⟨ch, hch, e, he, rfl⟩
  have hf : (add_event c (some e.name) st dur info day m1 m2).1 = FAILURE := by
    rcases add_event_cases c (some e.name) st dur info day m1 m2 with hc | hc
    · rw [hc]
    · obtain ⟨n, hn, _, _, _, _, _, hfind, _⟩ := hc
      cases hn
      exact absurd rfl ((find_event_status c hwf e.name none).1 hfind ch hch e he)
  exact ⟨hf, by rw [hadd hf]⟩

theorem failure_atomic_witness :
    (add_event demo3 (some "Lunch") 1300 45 none 2 true true).1 = FAILURE ∧
    (add_event demo3 (some "Lunch") 1300 45 none 2 true true).2.total_events =
      demo3.total_events :=
  (failure_atomic demo3 (some "Lunch") 1300 45 none 2 true true none).2.2.2.2.2.2.2 wf_demo3
    ⟨_, List.mem_cons_self _ _,
      { name := "Lunch", start_time := 1200, duration_minutes := 60, info := none },
      by decide, rfl⟩

/-- Claim C8. Insert/find round trip: after a successful `add_event` on a
reachable store, `find_event` for the name and `find_event_in_day` for the name
and the day both return `SUCCESS` and both write the same event to the out
parameter: the one just inserted, with the name, start time, duration and
payload given to `add_event`. -/
theorem add_then_find (c : Calendar) (hr : Reachable c) (name : Option String)
    (st dur : Int) (info : Option Nat) (day : Int) (m1 m2 : Bool)
    (h : (add_event c name st dur info day m1 m2).1 = SUCCESS) :
    ∃ n, name = some n ∧ ∀ v : Option Event,
      find_event (add_event c name st dur info day m1 m2).2 name (some v) =
        (SUCCESS, some (some
          { name := n, start_time := st, duration_minutes := dur, info := info })) ∧
      find_event_in_day (add_event c name st dur info day m1 m2).2 name day (some v) =
        (SUCCESS, some (some
          { name := n, start_time := st, duration_minutes := dur, info := info })) := by
  have hinv := reachable_inv c hr
  obtain ⟨n, L1, ch, L2, hn, hL, hi, hno, hres⟩ :=
    add_event_success c hinv.1 name st dur info day m1 m2 h
  have hwf1 := (inv_add c hinv name st dur info day m1 m2).1
  have hday : day = (L1.length : Int) + 1 := by
    rcases add_event_cases c name st dur info day m1 m2 with hc | hc
    · rw [hc] at h; cases h
    · obtain ⟨_, _, _, _, _, h4, _⟩ := hc
      omega
  have hch : ∀ x ∈ ch, x.name ≠ n := hno ch (by rw [hL]; simp)
  have hLno : ∀ x ∈ L1.flatten, x.name ≠ n := by
    intro x hx
    obtain ⟨l, hl, hxl⟩ := List.mem_flatten.1 hx
    exact hno l (by rw [hL]; exact List.mem_append_left _ hl) x hxl
  have htw : ∀ x ∈ ch.takeWhile (fun e => decide (c.comp_func
      { name := n, start_time := st, duration_minutes := dur, info := info } e > 0)),
      x.name ≠ n := fun x hx => hch x ((List.takeWhile_sublist _).subset hx)
  rw [hres] at hwf1 ⊢
  refine ⟨n, hn, fun v => ⟨?_, ?_⟩⟩
  · rw [hn, find_event_eq _ hwf1]
    simp only [List.flatten_append, List.flatten_cons, insert_event_eq, List.append_assoc,
      List.cons_append]
    rw [← List.append_assoc, find_in_chain_of_split n _ _ _ rfl (by
      intro x hx
      rcases List.mem_append.1 hx with hx | hx
      · exact hLno x hx
      · exact htw x hx)]
    rfl
  · rw [hn, hday, find_event_in_day_eq _ hwf1 n L1.length (by simp)]
    rw [slot_at _ L1 L2 _ rfl, insert_event_eq, find_in_chain_of_split n _ _ _ rfl htw]
    rfl

theorem add_then_find_witness :
    Reachable demo2 ∧ (add_event demo2 (some "Review") 1000 30 (some 7) 1 true true).1 = SUCCESS ∧
    ∃ n, some "Review" = some n ∧ ∀ v : Option Event,
      find_event (add_event demo2 (some "Review") 1000 30 (some 7) 1 true true).2
          (some "Review") (some v) =
        (SUCCESS, some (some
          { name := n, start_time := 1000, duration_minutes := 30, info := some 7 })) ∧
      find_event_in_day (add_event demo2 (some "Review") 1000 30 (some 7) 1 true true).2
          (some "Review") 1 (some v) =
        (SUCCESS, some (some
          { name := n, start_time := 1000, duration_minutes := 30, info := some 7 })) :=
  ⟨reachable_demo2, by decide,
    add_then_find demo2 reachable_demo2 (some "Review") 1000 30 (some 7) 1 true true
      (by decide)⟩

/-- Claim C9. Removal completeness: when `remove_event` returns `SUCCESS` on a
reachable store, afterwards `find_event` for that name fails, `find_event_in_day`
for that name fails for every day, and `total_events` is one less than before. -/
theorem remove_then_find (c : Calendar) (hr : Reachable c) (name : Option String)
    (c1 : Calendar) (freed : List Nat)
    (h : remove_event c name = some (SUCCESS, c1, freed)) :
    (∀ out, find_event c1 name out = (FAILURE, out)) ∧
    (∀ d out, find_event_in_day c1 name d out = (FAILURE, out)) ∧
    c1.total_events = c.total_events - 1 := by
  have hinv := reachable_inv c hr
  have hinv1 := inv_remove c hinv name _ h
  rcases remove_event_cases_some c hinv.1 name _ h with ⟨hc, _⟩ | hc
  · rw [hc] at h
    cases h
  · obtain ⟨L1, pre, e, post, L2, hn, hL, _, _, hres⟩ := hc
    rw [hres] at h
    cases h
    have hnd := hinv.2.1
    rw [names_of c _ hL] at hnd
    simp only [List.flatten_append, List.flatten_cons, List.map_append, List.map_cons,
      List.append_assoc, List.cons_append] at hnd
    rw [← List.append_assoc, List.nodup_middle, List.nodup_cons] at hnd
    have habs : ∀ ch ∈ L1 ++ (pre ++ post) :: L2, ∀ x ∈ ch, x.name ≠ e.name := by
      intro ch hch x hx hxe
      apply hnd.1
      rw [← hxe]
      have : x ∈ (L1 ++ (pre ++ post) :: L2).flatten := List.mem_flatten.2 ⟨ch, hch, hx⟩
      have h2 := List.mem_map_of_mem Event.name this
      simpa [List.flatten_append, List.map_append, List.append_assoc] using h2
    subst hn
    exact ⟨fun out => find_event_absent _ hinv1.1 e.name habs out,
      fun d out => find_event_in_day_absent _ e.name habs d out, rfl⟩

theorem remove_then_find_witness :
    Reachable demo3 ∧ remove_event demo3 (some "Review") = some (SUCCESS, demo4, []) ∧
    (∀ out, find_event demo4 (some "Review") out = (FAILURE, out)) ∧
    (∀ d out, find_event_in_day demo4 (some "Review") d out = (FAILURE, out)) ∧
    demo4.total_events = demo3.total_events - 1 :=
  ⟨reachable_demo3, rfl, remove_then_find demo3 reachable_demo3 (some "Review") demo4 [] rfl⟩

/-- The result of `remove_event` on a store with fewer than `INT_MAX` days, the
name present: it returns, with `FAILURE` exactly when no event of any day-slot
has that name and `SUCCESS` exactly when `find_event` on the same store and name
returns `SUCCESS`. -/
theorem remove_event_fails_iff (c : Calendar) (hwf : WF c) (hlt : c.days < INT_MAX)
    (n : String) (out : Option (Option Event)) :
    ∃ r, remove_event c (some n) = some r ∧
      (r.1 = FAILURE ↔ ∀ ch ∈ c.events, ∀ e ∈ ch, e.name ≠ n) ∧
      (r.1 = SUCCESS ↔ (find_event c (some n) out).1 = SUCCESS) := by
  have hfs := find_event_status c hwf n out
  rcases remove_event_cases c hwf (some n) with ⟨hc, hno⟩ | hc | ⟨_, hd, _⟩
  · have hno' := hno n rfl
    refine ⟨_, hc, ⟨fun _ => hno', fun _ => rfl⟩, ?_⟩
    constructor
    · intro h; cases h
    · intro h; exact absurd h (hfs.2 hno')
  · obtain ⟨L1, pre, e, post, L2, hn, hL, _, _, hres⟩ := hc
    cases hn
    have hyes : ¬ ∀ ch ∈ c.events, ∀ x ∈ ch, x.name ≠ e.name := by
      intro hall
      exact hall (pre ++ e :: post) (by rw [hL]; simp) e (by simp) rfl
    refine ⟨_, hres, ⟨fun h => (by cases h), fun h => absurd h hyes⟩, ?_⟩
    constructor
    · intro _
      by_contra hne
      exact hyes (hfs.1 hne)
    · intro _; rfl
  · omega

theorem absent_demo_max (n : String) : ∀ ch ∈ demo_max.events, ∀ e ∈ ch, e.name ≠ n := by
  intro ch hch e he
  have hnil : ch = [] := List.eq_of_mem_replicate hch
  rw [hnil] at he
  cases he

theorem wf_demo_max : WF demo_max :=
  ⟨(congrArg Int.ofNat (List.length_replicate 2147483647 ([] : List Event))).symm,
    Int.le_refl _⟩

/-- Claim C10, at the failing input. The freshly created calendar with `INT_MAX`
days holds no event named "x" and `find_event` returns `FAILURE` for that name,
but `remove_event` does not return `FAILURE`: after the day `INT_MAX` the step
`day++` overflows and the call has no result. -/
theorem remove_event_overflows :
    Reachable demo_max ∧
    (∀ ch ∈ demo_max.events, ∀ e ∈ ch, e.name ≠ "x") ∧
    find_event demo_max (some "x") none = (FAILURE, none) ∧
    remove_event demo_max (some "x") = none ∧
    remove_event demo_max (some "x") ≠ some (FAILURE, demo_max, []) := by
  have hov := remove_event_overflow demo_max "x" (Int.le_refl _) (absent_demo_max "x")
  refine ⟨?_, absent_demo_max "x",
    find_event_absent demo_max wf_demo_max "x" (absent_demo_max "x") none, hov, ?_⟩
  · exact Reachable.init (some "cal") 2147483647 by_start none true true true demo_max
      (Int.le_refl _) rfl
  · rw [hov]
    exact fun h => Option.noConfusion h

/-! ## Destructor calls -/

theorem free_calls_eq (c : Calendar) (e : Event) :
    free_calls c e = if c.free_info_func.isSome then [e].filterMap Event.info else [] := by
  unfold free_calls
  cases hi : e.info <;> cases hf : c.free_info_func <;> simp [List.filterMap, hi]

theorem chain_free_calls_eq (c : Calendar) (ch : List Event) :
    (ch.map (free_calls c)).flatten =
      if c.free_info_func.isSome then ch.filterMap Event.info else [] := by
  induction ch with
  | nil => simp
  | cons e rest ih =>
    rw [List.map_cons, List.flatten_cons, ih, free_calls_eq]
    cases hf : c.free_info_func with
    | none => simp
    | some f =>
      cases hi : e.info <;> simp [List.filterMap_cons, hi]

theorem all_free_calls_eq (c : Calendar) (L : List (List Event)) :
    (L.map (fun ch => (ch.map (free_calls c)).flatten)).flatten =
      if c.free_info_func.isSome then L.flatten.filterMap Event.info else [] := by
  induction L with
  | nil => simp
  | cons ch L ih =>
    rw [List.map_cons, List.flatten_cons, ih, chain_free_calls_eq]
    cases hf : c.free_info_func with
    | none => simp
    | some f => simp [List.filterMap_append]

theorem frame_of_perm (c c1 : Calendar) (removed : List Event) (freed : List Nat)
    (hp : c.events.flatten.Perm (removed ++ c1.events.flatten))
    (hf : freed = (if c.free_info_func.isSome then removed.filterMap Event.info else []))
    (hnd : (payloads c).Nodup) :
    ∀ x ∈ c1.events.flatten, ∀ p, x.info = some p → p ∉ freed := by
  intro x hx p hxp hmem
  have hp2 := hp.filterMap Event.info
  rw [List.filterMap_append] at hp2
  unfold payloads at hnd
  have hnd2 := (hp2.nodup_iff).1 hnd
  have hdis := (List.nodup_append.1 hnd2).2.2
  have h1 : p ∈ removed.filterMap Event.info := by
    rw [hf] at hmem
    split_ifs at hmem
    · exact hmem
    · simp at hmem
  have h2 : p ∈ c1.events.flatten.filterMap Event.info :=
    List.mem_filterMap.2 ⟨x, hx, hxp⟩
  exact hdis h1 h2

theorem discipline_intro (c c1 : Calendar) (removed : List Event) (freed : List Nat)
    (hp : c.events.flatten.Perm (removed ++ c1.events.flatten))
    (hf : freed = (if c.free_info_func.isSome then removed.filterMap Event.info else [])) :
    DestructorDiscipline c c1 freed :=
  ⟨removed, hp, hf, frame_of_perm c c1 removed freed hp hf⟩

theorem discipline_remove (c : Calendar) (hwf : WF c) (name : Option String)
    (r : Status × Calendar × List Nat) (h : remove_event c name = some r) :
    DestructorDiscipline c r.2.1 r.2.2 := by
  rcases remove_event_cases_some c hwf name r h with ⟨hc, _⟩ | hc
  · rw [hc] at h
    cases h
    exact discipline_intro c c [] [] (by simp) (by simp)
  · obtain ⟨L1, pre, e, post, L2, _, hL, _, _, hres⟩ := hc
    rw [hres] at h
    cases h
    refine discipline_intro c _ [e] _ ?_ (free_calls_eq c e)
    rw [hL]
    simp only [List.flatten_append, List.flatten_cons, List.append_assoc, List.cons_append,
      List.singleton_append, List.nil_append]
    rw [← List.append_assoc]
    refine List.perm_middle.trans ?_
    simp only [List.append_assoc]
    exact List.Perm.refl _

theorem discipline_clear_day (c : Calendar) (hinv : Inv c) (day : Int)
    (r : Status × Calendar × List Nat) (h : clear_day c day = some r) :
    DestructorDiscipline c r.2.1 r.2.2 := by
  rcases clear_day_cases c hinv.1 hinv.2.1 day with ⟨_, hc⟩ | hc
  · rw [hc] at h
    cases h
    exact discipline_intro c c [] [] (by simp) (by simp)
  · obtain ⟨L1, ch, L2, hL, _, hres⟩ := hc
    rw [hres] at h
    cases h
    refine discipline_intro c _ ch _ ?_ (chain_free_calls_eq c ch)
    rw [hL]
    simp only [List.flatten_append, List.flatten_cons, List.nil_append]
    rw [← List.append_assoc, ← List.append_assoc]
    exact List.Perm.append_right _ List.perm_append_comm

theorem discipline_clear_calendar (c : Calendar) (hinv : Inv c)
    (r : Status × Calendar × List Nat) (h : clear_calendar c = some r) :
    DestructorDiscipline c r.2.1 r.2.2 := by
  rw [clear_calendar_spec c hinv.1 hinv.2.1] at h
  cases h
  refine discipline_intro c _ c.events.flatten _ ?_ (all_free_calls_eq c c.events)
  simp

theorem reachable_shared2 : Reachable shared2 :=
  Reachable.add shared1 (some "B") 1000 30 (some 7) 1 true true
    (Reachable.add shared0 (some "A") 900 15 (some 7) 1 true true
      (Reachable.init (some "cal") 1 by_start (some (fun _ => ())) true true true shared0 (by decide) rfl))

/-- Claim C11, refuted as stated. "A" and "B" are added with the same payload 7 to a
calendar that has a destructor; removing "A" calls the destructor on 7, which is
also the payload of "B", an event that stays in the store. -/
theorem shared_payload_freed :
    Reachable shared2 ∧
    remove_event shared2 (some "A") = some (SUCCESS, shared3, [7]) ∧
    ∃ x ∈ shared3.events.flatten, ∃ p, x.info = some p ∧ p ∈ [7] :=
  ⟨reachable_shared2, rfl,
    { name := "B", start_time := 1000, duration_minutes := 30, info := some 7 },
    by decide, 7, rfl, by decide⟩

/-- Claim C11, amended. On a reachable store every call of `remove_event`,
`clear_day` and `clear_calendar`, and `destroy_calendar` through
`clear_calendar`, satisfies the destructor discipline: the calls are, in order,
the present payloads of the events it removes, one call for each removed event,
when a destructor is configured, and none when no destructor is configured; an
event whose payload is absent gives no call; and when no two events of the
store share a payload, the destructor is never called on the payload of an
event that stays in the store. `clear_day` and `clear_calendar` always return,
and so does `remove_event` when the store has fewer than `INT_MAX` days or holds
an event of that name. -/
theorem destructor_discipline (c : Calendar) (hr : Reachable c) :
    (∀ name r, remove_event c name = some r → DestructorDiscipline c r.2.1 r.2.2) ∧
    (∀ name, (c.days < INT_MAX ∨ ∃ n ∈ names c, name = some n) →
      ∃ r, remove_event c name = some r) ∧
    (∀ day, ∃ r, clear_day c day = some r ∧ DestructorDiscipline c r.2.1 r.2.2) ∧
    (∃ r, clear_calendar c = some r ∧ DestructorDiscipline c r.2.1 r.2.2 ∧
      destroy_calendar c = some (SUCCESS, r.2.2)) := by
  have hinv := reachable_inv c hr
  refine ⟨?_, ?_, ?_, ?_⟩
  · intro name r hr1
    exact discipline_remove c hinv.1 name r hr1
  · intro name hname
    rcases remove_event_cases c hinv.1 name with ⟨hc, _⟩ | hc | ⟨_, hd, n, hn, hno⟩
    · exact ⟨_, hc⟩
    · obtain ⟨L1, pre, e, post, L2, _, _, _, _, hres⟩ := hc
      exact ⟨_, hres⟩
    · rcases hname with hlt | ⟨m, hm, hnm⟩
      · omega
      · rw [hn] at hnm
        cases hnm
        exact absurd hm ((no_name_iff_names c n).1 hno)
  · intro day
    obtain ⟨r, hr1⟩ := clear_day_returns c hinv.1 day
    exact ⟨r, hr1, discipline_clear_day c hinv day r hr1⟩
  · have hcc := clear_calendar_spec c hinv.1 hinv.2.1
    refine ⟨_, hcc, discipline_clear_calendar c hinv _ hcc, ?_⟩
    simp only [destroy_calendar, hcc]

theorem reachable_owned2 : Reachable owned2 :=
  Reachable.add shared1 (some "C") 1000 30 (some 8) 1 true true
    (Reachable.add shared0 (some "A") 900 15 (some 7) 1 true true
      (Reachable.init (some "cal") 1 by_start (some (fun _ => ())) true true true shared0 (by decide) rfl))

theorem destructor_discipline_witness :
    Reachable owned2 ∧ (payloads owned2).Nodup ∧
    (∀ name r, remove_event owned2 name = some r →
      DestructorDiscipline owned2 r.2.1 r.2.2) ∧
    (∀ name, (owned2.days < INT_MAX ∨ ∃ n ∈ names owned2, name = some n) →
      ∃ r, remove_event owned2 name = some r) ∧
    (∀ day, ∃ r, clear_day owned2 day = some r ∧ DestructorDiscipline owned2 r.2.1 r.2.2) ∧
    (∃ r, clear_calendar owned2 = some r ∧ DestructorDiscipline owned2 r.2.1 r.2.2 ∧
      destroy_calendar owned2 = some (SUCCESS, r.2.2)) :=
  ⟨reachable_owned2, by decide, destructor_discipline owned2 reachable_owned2⟩

/-! ## Clearing day by day -/

theorem clear_chain_head (ch : List Event) :
    ∀ (c : Calendar) (E L2 : List (List Event)), WF c → (∀ ch' ∈ E, ch' = []) →
      c.events = E ++ ch :: L2 →
      clear_chain c ch =
        some ({ c with events := E ++ [] :: L2,
                       total_events := c.total_events - (ch.length : Nat) },
          (ch.map (free_calls c)).flatten) := by
  induction ch with
  | nil =>
    intro c E L2 _ _ h
    cases c
    simp only at h
    simp [clear_chain, h]
  | cons e rest ih =>
    intro c E L2 hwf hE h
    have hL1 : ∀ ch' ∈ E, ∀ x ∈ ch', x.name ≠ e.name := by
      intro ch' hch' x hx
      rw [hE ch' hch'] at hx
      cases hx
    have hrem := remove_event_hit c hwf E L2 [] rest e (by simpa using h) hL1 (by simp)
    simp only [List.nil_append] at hrem
    have hwf1 : WF { c with events := E ++ rest :: L2, total_events := c.total_events - 1 } := by
      exact wf_of_events c _ hwf rfl (by simp [h])
    have hrec := ih _ E L2 hwf1 hE rfl
    simp only [clear_chain, hrem, hrec]
    simp only [List.map_cons, List.flatten_cons, List.length_cons, free_calls]
    congr 3
    push_cast
    omega

theorem clear_day_head (c : Calendar) (hwf : WF c) (E L2 : List (List Event))
    (hE : ∀ ch' ∈ E, ch' = []) (ch : List Event) (h : c.events = E ++ ch :: L2) :
    clear_day c ((E.length : Int) + 1) =
      some (SUCCESS,
        { c with events := E ++ [] :: L2,
                 total_events := c.total_events - (ch.length : Nat) },
        (ch.map (free_calls c)).flatten) := by
  have hg : ¬ ((E.length : Int) + 1 < 1 ∨ (E.length : Int) + 1 > c.days) := by
    rw [hwf.1, h]
    simp only [List.length_append, List.length_cons]
    push_cast
    omega
  simp only [clear_day, hg, if_false, day_index, slot_at c E L2 ch h,
    clear_chain_head ch c E L2 hwf hE h, set_at]

theorem clear_calendar_from_head (L2 : List (List Event)) :
    ∀ (c : Calendar) (E : List (List Event)), WF c → (∀ ch' ∈ E, ch' = []) →
      c.events = E ++ L2 →
      clear_calendar_from c (List.range' E.length L2.length) =
        some ({ c with events := E ++ List.replicate L2.length [],
                       total_events := c.total_events - ((L2.map List.length).sum : Nat) },
          (L2.map (fun ch => (ch.map (free_calls c)).flatten)).flatten) := by
  induction L2 with
  | nil =>
    intro c E _ _ h
    cases c
    simp only at h
    simp [clear_calendar_from, h]
  | cons ch L2 ih =>
    intro c E hwf hE h
    have hcc := clear_chain_head ch c E L2 hwf hE h
    have hwf1 : WF
        { c with events := E ++ [] :: L2, total_events := c.total_events - (ch.length : Nat) } := by
      exact wf_of_events c _ hwf rfl (by simp [h])
    have hE1 : ∀ ch' ∈ E ++ [[]], ch' = [] := by
      intro ch' hch'
      rcases List.mem_append.1 hch' with h1 | h1
      · exact hE ch' h1
      · simpa using h1
    have hrec := ih _ (E ++ [[]]) hwf1 hE1 (by simp)
    simp only [List.length_append, List.length_singleton] at hrec
    simp only [List.length_cons, List.range'_succ, clear_calendar_from, slot_at c E L2 ch h,
      hcc, set_at, hrec]
    simp only [List.map_cons, List.flatten_cons, List.sum_cons, free_calls,
      List.replicate_succ, List.append_assoc, List.singleton_append]
    congr 3
    push_cast
    omega

theorem clear_days_head (L2 : List (List Event)) :
    ∀ (c : Calendar) (E : List (List Event)), WF c → (∀ ch' ∈ E, ch' = []) →
      c.events = E ++ L2 →
      clear_days c ((List.range' E.length L2.length).map (fun (i : Nat) => (i : Int) + 1)) =
        some ({ c with events := E ++ List.replicate L2.length [],
                       total_events := c.total_events - ((L2.map List.length).sum : Nat) },
          (L2.map (fun ch => (ch.map (free_calls c)).flatten)).flatten) := by
  induction L2 with
  | nil =>
    intro c E _ _ h
    cases c
    simp only at h
    simp [clear_days, h]
  | cons ch L2 ih =>
    intro c E hwf hE h
    have hcd := clear_day_head c hwf E L2 hE ch h
    have hwf1 : WF
        { c with events := E ++ [] :: L2, total_events := c.total_events - (ch.length : Nat) } := by
      exact wf_of_events c _ hwf rfl (by simp [h])
    have hE1 : ∀ ch' ∈ E ++ [[]], ch' = [] := by
      intro ch' hch'
      rcases List.mem_append.1 hch' with h1 | h1
      · exact hE ch' h1
      · simpa using h1
    have hrec := ih _ (E ++ [[]]) hwf1 hE1 (by simp)
    simp only [List.length_append, List.length_singleton] at hrec
    simp only [List.length_cons, List.range'_succ, List.map_cons, clear_days, hcd, hrec]
    simp only [List.flatten_cons, List.sum_cons, free_calls,
      List.replicate_succ, List.append_assoc, List.singleton_append]
    congr 3
    push_cast
    omega

theorem clear_calendar_wf (c : Calendar) (hwf : WF c) :
    clear_calendar c =
      some (SUCCESS,
        { c with events := List.replicate c.events.length [], total_events := 0 },
        (c.events.map (fun ch => (ch.map (free_calls c)).flatten)).flatten) := by
  have h := clear_calendar_from_head c.events c [] hwf (by simp) (by simp)
  have hr : List.range c.days.toNat = List.range' 0 c.events.length := by
    rw [hwf.1, Int.toNat_ofNat, List.range_eq_range']
  simp only [List.length_nil] at h
  simp only [clear_calendar, hr, h, List.nil_append]

theorem clear_days_wf (c : Calendar) (hwf : WF c) :
    clear_days c (day_numbers c.days) =
      some ({ c with events := List.replicate c.events.length [],
                     total_events := c.total_events - chain_total c },
        (c.events.map (fun ch => (ch.map (free_calls c)).flatten)).flatten) := by
  have h := clear_days_head c.events c [] hwf (by simp) (by simp)
  have hr : day_numbers c.days =
      (List.range' 0 c.events.length).map (fun (i : Nat) => (i : Int) + 1) := by
    unfold day_numbers
    rw [hwf.1, Int.toNat_ofNat, List.range_eq_range']
  simp only [List.length_nil] at h
  simp only [hr, h, List.nil_append, chain_total]

/-- Claim C12. On a reachable store `clear_day` with `1 ≤ day ≤ days` returns
`SUCCESS`, leaves the slot of that day empty and every other slot's chain as it
was; with `day < 1` or `day > days` it returns `FAILURE` (and changes
nothing). -/
theorem clear_day_semantics (c : Calendar) (hr : Reachable c) (day : Int) :
    (1 ≤ day → day ≤ c.days →
      ∃ c1 freed, clear_day c day = some (SUCCESS, c1, freed) ∧
        slot c1 (day - 1).toNat = [] ∧
        (∀ j, j ≠ (day - 1).toNat → slot c1 j = slot c j) ∧
        c1.events.length = c.events.length) ∧
    ((day < 1 ∨ day > c.days) → clear_day c day = some (FAILURE, c, [])) := by
  have hinv := reachable_inv c hr
  constructor
  · intro h1 h2
    rcases clear_day_cases c hinv.1 hinv.2.1 day with ⟨hg, _⟩ | hc
    · omega
    · obtain ⟨L1, ch, L2, hL, hd, hres⟩ := hc
      have hi : (day - 1).toNat = L1.length := by rw [hd, day_index]
      refine ⟨_, _, hres, ?_, ?_, ?_⟩
      · rw [hi]
        exact slot_at _ L1 L2 [] rfl
      · intro j hj
        have := slot_set_ne c (day - 1).toNat j [] hj
        rw [hL, hi, set_at] at this
        rw [← this]
        rfl
      · simp [hL]
  · intro hg
    simp only [clear_day, hg, if_true]

theorem clear_day_semantics_witness :
    Reachable demo3 ∧
    ((1 : Int) ≤ 1 → (1 : Int) ≤ demo3.days →
      ∃ c1 freed, clear_day demo3 1 = some (SUCCESS, c1, freed) ∧
        slot c1 ((1 : Int) - 1).toNat = [] ∧
        (∀ j, j ≠ ((1 : Int) - 1).toNat → slot c1 j = slot demo3 j) ∧
        c1.events.length = demo3.events.length) ∧
    (((1 : Int) < 1 ∨ (1 : Int) > demo3.days) → clear_day demo3 1 = some (FAILURE, demo3, [])) :=
  ⟨reachable_demo3, clear_day_semantics demo3 reachable_demo3 1⟩

/-- Claim C13. On every store `clear_calendar` returns `SUCCESS`; afterwards every
slot is empty and `total_events` is 0, with the number of slots, `days`, the
name, the comparator and the destructor unchanged. Applying `clear_day` to the
days `1, ..., days` in turn makes the same destructor calls and gives the same
calendar except that `total_events` is lowered by the number of events instead
of being set to 0; so the two results are equal when `total_events` counts the
events of the store, as it does in every reachable store. -/
theorem clear_calendar_semantics (c : Calendar) (hwf : WF c) :
    ∃ c1 freed, clear_calendar c = some (SUCCESS, c1, freed) ∧
      (∀ i, slot c1 i = []) ∧ c1.total_events = 0 ∧
      c1.events.length = c.events.length ∧ c1.days = c.days ∧ c1.name = c.name ∧
      c1.comp_func = c.comp_func ∧ c1.free_info_func = c.free_info_func ∧
      clear_days c (day_numbers c.days) =
        some ({ c1 with total_events := c.total_events - chain_total c }, freed) ∧
      (c.total_events = chain_total c →
        clear_days c (day_numbers c.days) = some (c1, freed)) := by
  refine ⟨_, _, clear_calendar_wf c hwf, ?_, rfl, by simp, rfl, rfl, rfl, rfl,
    clear_days_wf c hwf, ?_⟩
  · intro i
    unfold slot
    rw [List.getD_eq_getElem?_getD]
    by_cases hi : i < c.events.length
    · simp [List.getElem?_replicate, hi]
    · simp [List.getElem?_replicate, hi]
  · intro htot
    rw [clear_days_wf c hwf, htot, sub_self]

theorem clear_calendar_semantics_witness :
    WF demo3 ∧ demo3.total_events = chain_total demo3 ∧
    ∃ c1 freed, clear_calendar demo3 = some (SUCCESS, c1, freed) ∧
      (∀ i, slot c1 i = []) ∧ c1.total_events = 0 ∧
      c1.events.length = demo3.events.length ∧ c1.days = demo3.days ∧
      c1.name = demo3.name ∧
      c1.comp_func = demo3.comp_func ∧ c1.free_info_func = demo3.free_info_func ∧
      clear_days demo3 (day_numbers demo3.days) =
        some ({ c1 with total_events := demo3.total_events - chain_total demo3 }, freed) ∧
      (demo3.total_events = chain_total demo3 →
        clear_days demo3 (day_numbers demo3.days) = some (c1, freed)) :=
  ⟨wf_demo3, by decide, clear_calendar_semantics demo3 wf_demo3⟩

/-! ## The report -/

theorem unlines_append (a b : List String) : unlines (a ++ b) = unlines a ++ unlines b := by
  induction a with
  | nil => simp [unlines]
  | cons l a ih => simp [unlines, ih, String.append_assoc]

theorem print_chain_eq (ch : List Event) : print_chain ch = unlines (ch.map event_line) := by
  induction ch with
  | nil => rfl
  | cons e rest ih =>
    have h1 : ("\", " ++ "Start_time: " : String) = "\", Start_time: " := by decide
    have h2 : (", " ++ "Duration: " : String) = ", Duration: " := by decide
    simp only [print_chain, List.map_cons, unlines, event_line, ih, String.append_assoc]
    rw [← String.append_assoc "\", " "Start_time: ", h1,
      ← String.append_assoc ", " "Duration: ", h2]

theorem print_days_eq (c : Calendar) (is : List Nat) :
    print_days c is =
      unlines ((is.map (fun (i : Nat) => day_lines ((i : Int) + 1) (slot c i))).flatten) := by
  induction is with
  | nil => rfl
  | cons i rest ih =>
    simp only [print_days, List.map_cons, List.flatten_cons, day_lines, List.cons_append,
      unlines, unlines_append, ih, print_chain_eq, String.append_assoc, List.append_eq]

theorem header_eq (c : Calendar) :
    "Calendar's Name: \"" ++ c.name ++ "\"\n" ++
      "Days: " ++ toString c.days ++ "\n" ++
      "Total Events: " ++ toString c.total_events ++ "\n\n" = unlines (header_lines c) := by
  have h1 : ("\"\n" : String) = "\"" ++ "\n" := by decide
  have h2 : ("\n\n" : String) = "\n" ++ ("" ++ "\n" ++ "") := by decide
  simp only [header_lines, unlines]
  rw [h1, h2]
  simp only [String.append_assoc]

theorem print_calendar_eq (c : Calendar) (print_all : Int) (h : c.total_events ≠ 0) :
    print_calendar c print_all = (SUCCESS, unlines (report_lines c print_all)) := by
  have hd : (day_numbers c.days).map (fun day => day_lines day (slot c (day - 1).toNat)) =
      (List.range c.days.toNat).map
        (fun (i : Nat) => day_lines ((i : Int) + 1) (slot c i)) := by
    unfold day_numbers
    rw [List.map_map]
    apply List.map_congr_left
    intro i _
    simp only [Function.comp, day_index]
  have hs : ("**** Events ****\n" : String) = "**** Events ****" ++ "\n" := by decide
  unfold print_calendar report_lines
  rw [hd]
  have h0 : ¬ c.total_events = 0 := h
  by_cases hp : print_all ≠ 0
  · simp only []
    rw [if_pos hp, if_pos hp, if_neg h0, header_eq, hs]
    simp only [unlines_append, unlines, String.append_assoc, String.append_empty,
      print_days_eq, List.append_eq, List.nil_append]
  · simp only []
    rw [if_neg hp, if_neg hp, if_neg h0, hs]
    simp only [unlines_append, unlines, String.append_assoc, String.append_empty,
      String.empty_append, print_days_eq, List.append_eq, List.nil_append]

theorem chain_total_zero (c : Calendar) (h : ∀ ch ∈ c.events, ch = []) : chain_total c = 0 := by
  unfold chain_total
  have : (c.events.map List.length).sum = 0 := by
    apply List.sum_eq_zero
    intro n hn
    obtain ⟨ch, hch, rfl⟩ := List.mem_map.1 hn
    rw [h ch hch]
    rfl
  rw [this]
  rfl

theorem chain_total_pos (c : Calendar) (ch : List Event) (hch : ch ∈ c.events)
    (hne : ch ≠ []) : chain_total c ≠ 0 := by
  unfold chain_total
  have h1 : ch.length ≤ (c.events.map List.length).sum :=
    List.single_le_sum (by simp) _ (List.mem_map_of_mem _ hch)
  have h2 : 0 < ch.length := List.length_pos.2 hne
  omega

theorem reachable_demo4 : Reachable demo4 :=
  Reachable.remove demo3 (some "Review") (SUCCESS, demo4, []) reachable_demo3 rfl

/-- Claim C14, refuted as stated. The freshly created three-day calendar holds no
event; `print_calendar` writes the section header and nothing after it, so the
day labels "Day 1", "Day 2", "Day 3" are not written. -/
theorem empty_report_no_day_labels :
    Reachable demo0 ∧ demo0.events.flatten = [] ∧ demo0.days = 3 ∧
    print_calendar demo0 0 = (SUCCESS, "**** Events ****\n") ∧
    print_calendar demo0 0 ≠ (SUCCESS, "**** Events ****\nDay 1\nDay 2\nDay 3\n") ∧
    print_calendar demo0 1 =
      (SUCCESS, "Calendar's Name: \"cal\"\nDays: 3\nTotal Events: 0\n\n**** Events ****\n") :=
  ⟨reachable_demo0, by decide, by decide, by decide, by decide, by decide⟩

/-- Claim C14, amended. For a store with zero events, that is with
`total_events = 0`, which holds for every reachable store without events,
`print_calendar` writes the header lines when `print_all` is non-zero and then
the section header, and returns `SUCCESS` without writing anything more: no day
label and no event line. -/
theorem empty_report (c : Calendar) (print_all : Int)
    (h : c.total_events = 0 ∨ (Reachable c ∧ ∀ ch ∈ c.events, ch = [])) :
    print_calendar c print_all =
      (SUCCESS,
        unlines ((if print_all ≠ 0 then header_lines c else []) ++ ["**** Events ****"])) := by
  have h0 : c.total_events = 0 := by
    rcases h with h | ⟨hr, he⟩
    · exact h
    · rw [(reachable_inv c hr).2.2, chain_total_zero c he]
  have hs : ("**** Events ****\n" : String) = "**** Events ****" ++ "\n" := by decide
  unfold print_calendar
  by_cases hp : print_all ≠ 0
  · simp only []
    rw [if_pos hp, if_pos hp, if_pos h0, header_eq, hs]
    simp only [unlines_append, unlines, String.append_assoc, String.append_empty]
  · simp only []
    rw [if_neg hp, if_neg hp, if_pos h0, hs]
    simp only [unlines, String.append_assoc, String.append_empty, String.empty_append,
      List.nil_append]

theorem empty_report_witness :
    (demo0.total_events = 0 ∨ (Reachable demo0 ∧ ∀ ch ∈ demo0.events, ch = [])) ∧
    print_calendar demo0 1 =
      (SUCCESS,
        unlines ((if (1 : Int) ≠ 0 then header_lines demo0 else []) ++ ["**** Events ****"])) :=
  ⟨Or.inl rfl, empty_report demo0 1 (Or.inl rfl)⟩

/-- Claim C15. For a reachable store that holds at least one event the text
`print_calendar` writes is exactly the lines of `report_lines`, each followed by
a newline: the three header lines and a blank line when `print_all` is non-zero,
the section header, and for every day from 1 to `days` in increasing order the
day label followed by one line for each event of that day in chain order. -/
theorem report_format (c : Calendar) (hr : Reachable c) (hne : ∃ ch ∈ c.events, ch ≠ [])
    (print_all : Int) :
    print_calendar c print_all = (SUCCESS, unlines (report_lines c print_all)) := by
  obtain ⟨ch, hch, hne⟩ := hne
  have h : c.total_events ≠ 0 := by
    rw [(reachable_inv c hr).2.2]
    exact chain_total_pos c ch hch hne
  exact print_calendar_eq c print_all h

set_option maxRecDepth 100000 in
theorem report_format_witness :
    Reachable demo4 ∧ (∃ ch ∈ demo4.events, ch ≠ []) ∧
    slot demo3 0 =
      [{ name := "Standup", start_time := 900, duration_minutes := 15, info := none },
       { name := "Review", start_time := 1000, duration_minutes := 30, info := some 7 },
       { name := "Lunch", start_time := 1200, duration_minutes := 60, info := none }] ∧
    remove_event demo3 (some "Review") = some (SUCCESS, demo4, []) ∧
    print_calendar demo4 1 = (SUCCESS, unlines (report_lines demo4 1)) ∧
    unlines (report_lines demo4 1) =
      "Calendar's Name: \"cal\"\nDays: 3\nTotal Events: 2\n\n**** Events ****\nDay 1\nEvent's Name: \"Standup\", Start_time: 900, Duration: 15\nEvent's Name: \"Lunch\", Start_time: 1200, Duration: 60\nDay 2\nDay 3\n" :=
  ⟨reachable_demo4, ⟨_, List.mem_cons_self _ _, by decide⟩, by decide, rfl,
    report_format demo4 reachable_demo4 ⟨_, List.mem_cons_self _ _, by decide⟩ 1, by decide⟩

/-- Claim C16. With the name present, `find_event` returns `SUCCESS` exactly when
some event of some day-slot has that name, and then the out parameter, when
supplied, receives the first such event in slot order and then chain order; when
it returns `FAILURE` the out parameter keeps its value. The function returns
nothing but the result code and the out parameter: it has no way to change the
store. -/
theorem find_event_spec (c : Calendar) (hwf : WF c) (n : String)
    (out : Option (Option Event)) :
    ((find_event c (some n) out).1 = SUCCESS ↔ ∃ ch ∈ c.events, ∃ e ∈ ch, e.name = n) ∧
    ((find_event c (some n) out).1 = SUCCESS →
      ∃ L1 pre e post L2, c.events = L1 ++ (pre ++ e :: post) :: L2 ∧ e.name = n ∧
        (∀ ch ∈ L1, ∀ x ∈ ch, x.name ≠ n) ∧ (∀ x ∈ pre, x.name ≠ n) ∧
        (find_event c (some n) out).2 = write_out out e ∧
        (∀ v, out = some v → (find_event c (some n) out).2 = some (some e)) ∧
        (out = none → (find_event c (some n) out).2 = none)) ∧
    ((find_event c (some n) out).1 = FAILURE → (find_event c (some n) out).2 = out) := by
  have hiff : (find_event c (some n) out).1 = SUCCESS ↔
      ∃ ch ∈ c.events, ∃ e ∈ ch, e.name = n := by
    have hs := find_event_status c hwf n out
    constructor
    · intro h
      by_contra hno
      apply hs.2 _ h
      intro ch hch e he hn
      exact hno ⟨ch, hch, e, he, hn⟩
    · rintro ⟨ch, hch, e, he, hn⟩
      by_contra hne
      exact hs.1 hne ch hch e he hn
  refine ⟨hiff, ?_, find_event_failure c (some n) out⟩
  intro h
  obtain ⟨L1, pre, e, post, L2, hL, hn, hpre, hL1⟩ := first_match_split n c.events (hiff.1 h)
  have hfind : find_in_chain n c.events.flatten = some e := by
    rw [hL]
    simp only [List.flatten_append, List.flatten_cons, List.append_assoc, List.cons_append]
    rw [← List.append_assoc]
    apply find_in_chain_of_split n _ _ e hn
    intro x hx
    rcases List.mem_append.1 hx with hx | hx
    · obtain ⟨l, hl, hxl⟩ := List.mem_flatten.1 hx
      exact hL1 l hl x hxl
    · exact hpre x hx
  have hres : (find_event c (some n) out).2 = write_out out e := by
    rw [find_event_eq c hwf, hfind]
  refine ⟨L1, pre, e, post, L2, hL, hn, hL1, hpre, hres, ?_, ?_⟩
  · intro v hv
    rw [hres, hv]
    rfl
  · intro hv
    rw [hres, hv]
    rfl

theorem find_event_spec_witness :
    WF demo3 ∧
    ((find_event demo3 (some "Lunch") (some none)).1 = SUCCESS ↔
      ∃ ch ∈ demo3.events, ∃ e ∈ ch, e.name = "Lunch") ∧
    ((find_event demo3 (some "Lunch") (some none)).1 = SUCCESS →
      ∃ L1 pre e post L2, demo3.events = L1 ++ (pre ++ e :: post) :: L2 ∧ e.name = "Lunch" ∧
        (∀ ch ∈ L1, ∀ x ∈ ch, x.name ≠ "Lunch") ∧ (∀ x ∈ pre, x.name ≠ "Lunch") ∧
        (find_event demo3 (some "Lunch") (some none)).2 = write_out (some none) e ∧
        (∀ v : Option Event, (some none : Option (Option Event)) = some v →
          (find_event demo3 (some "Lunch") (some none)).2 = some (some e)) ∧
        ((some none : Option (Option Event)) = none →
          (find_event demo3 (some "Lunch") (some none)).2 = none)) ∧
    ((find_event demo3 (some "Lunch") (some none)).1 = FAILURE →
      (find_event demo3 (some "Lunch") (some none)).2 = some none) :=
  ⟨wf_demo3, find_event_spec demo3 wf_demo3 "Lunch" (some none)⟩

/-- Claim C17. With the name present, `find_event_in_day` returns `FAILURE` when
`day < 1` or `day > days`; for `1 ≤ day ≤ days` it returns `SUCCESS` exactly when
the chain of that day-slot holds an event of that name, whatever the other days
hold, and then the out parameter, when supplied, receives the first such event
in chain order; when it returns `FAILURE` the out parameter keeps its value. -/
theorem find_event_in_day_spec (c : Calendar) (n : String) (day : Int)
    (out : Option (Option Event)) :
    ((day < 1 ∨ day > c.days) → find_event_in_day c (some n) day out = (FAILURE, out)) ∧
    (1 ≤ day → day ≤ c.days →
      ((find_event_in_day c (some n) day out).1 = SUCCESS ↔
        ∃ e ∈ slot c (day - 1).toNat, e.name = n) ∧
      ((find_event_in_day c (some n) day out).1 = SUCCESS →
        ∃ pre e post, slot c (day - 1).toNat = pre ++ e :: post ∧ e.name = n ∧
          (∀ x ∈ pre, x.name ≠ n) ∧
          (find_event_in_day c (some n) day out).2 = write_out out e ∧
          (∀ v, out = some v → (find_event_in_day c (some n) day out).2 = some (some e)) ∧
          (out = none → (find_event_in_day c (some n) day out).2 = none))) ∧
    ((find_event_in_day c (some n) day out).1 = FAILURE →
      (find_event_in_day c (some n) day out).2 = out) := by
  refine ⟨?_, ?_, find_event_in_day_failure c (some n) day out⟩
  · intro hg
    simp only [find_event_in_day, hg, if_true]
  · intro h1 h2
    have hg : ¬ (day < 1 ∨ day > c.days) := by omega
    cases hf : find_in_chain n (slot c (day - 1).toNat) with
    | none =>
      have heq : find_event_in_day c (some n) day out = (FAILURE, out) := by
        simp only [find_event_in_day, hg, if_false, hf]
      rw [heq]
      have hno := (find_in_chain_eq_none n _).1 hf
      refine ⟨⟨fun h => (by cases h), ?_⟩, fun h => (by cases h)⟩
      rintro ⟨e, he, hn⟩
      exact absurd hn (hno e he)
    | some e =>
      have heq : find_event_in_day c (some n) day out = (SUCCESS, write_out out e) := by
        simp only [find_event_in_day, hg, if_false, hf]
      rw [heq]
      obtain ⟨pre, post, hsp, hn, hpre⟩ := find_in_chain_split n _ e hf
      refine ⟨⟨fun _ => ⟨e, by rw [hsp]; simp, hn⟩, fun _ => rfl⟩, ?_⟩
      intro _
      refine ⟨pre, e, post, hsp, hn, hpre, rfl, ?_, ?_⟩
      · intro v hv
        rw [hv]
        rfl
      · intro hv
        rw [hv]
        rfl

/-- An instance of claim C17: "Lunch" is in day 1 of `demo3`, so the lookup in day 1
yields it, the lookup in day 2 fails and leaves the out parameter alone, and so
does the lookup in day 4, which is out of range. -/
theorem find_event_in_day_spec_witness :
    find_event_in_day demo3 (some "Lunch") 1 (some none) =
      (SUCCESS, some (some
        { name := "Lunch", start_time := 1200, duration_minutes := 60, info := none })) ∧
    find_event_in_day demo3 (some "Lunch") 2 (some none) = (FAILURE, some none) ∧
    find_event_in_day demo3 (some "Lunch") 4 (some none) = (FAILURE, some none) :=
  ⟨by decide, by decide,
    (find_event_in_day_spec demo3 "Lunch" 4 (some none)).1 (by decide)⟩

/-- Claim C18. `get_event_info` is `find_event` followed by reading the payload:
when `find_event` succeeds and yields an event, `get_event_info` returns the
`info` field of that event; when `find_event` fails it returns the absent value;
hence an event whose payload is absent and a missing event both give the absent
value. -/
theorem get_event_info_spec (c : Calendar) (n : String) :
    (∀ v e, find_event c (some n) (some v) = (SUCCESS, some (some e)) →
      get_event_info c n = e.info) ∧
    (∀ out, (find_event c (some n) out).1 = FAILURE → get_event_info c n = none) ∧
    (∀ v e, find_event c (some n) (some v) = (SUCCESS, some (some e)) → e.info = none →
      get_event_info c n = none) := by
  have hyield : ∀ v e, find_event c (some n) (some v) = (SUCCESS, some (some e)) →
      get_event_info c n = e.info := by
    intro v e h
    cases hf : find_event_from c n (List.range c.days.toNat) with
    | none =>
      simp only [find_event, hf] at h
      cases h
    | some e1 =>
      simp only [find_event, hf, write_out, Prod.mk.injEq, Option.some.injEq, true_and] at h
      subst h
      simp only [get_event_info, find_event, hf, if_true]
  refine ⟨hyield, ?_, ?_⟩
  · intro out h
    cases hf : find_event_from c n (List.range c.days.toNat) with
    | none =>
      have hne : ¬ (FAILURE = SUCCESS) := by decide
      simp only [get_event_info, find_event, hf, hne, if_false]
    | some e1 =>
      simp only [find_event, hf] at h
      cases h
  · intro v e h hi
    rw [hyield v e h, hi]

/-- An instance of claim C18: in `demo3` the event "Lunch" exists and has no payload,
the event "Dinner" does not exist, and `get_event_info` returns the absent value
for both, while for "Review" it returns the payload 7. -/
theorem get_event_info_spec_witness :
    find_event demo3 (some "Lunch") (some none) =
      (SUCCESS, some (some
        { name := "Lunch", start_time := 1200, duration_minutes := 60, info := none })) ∧
    get_event_info demo3 "Lunch" = none ∧
    (find_event demo3 (some "Dinner") (some none)).1 = FAILURE ∧
    get_event_info demo3 "Dinner" = none ∧
    get_event_info demo3 "Review" = some 7 :=
  ⟨by decide,
    (get_event_info_spec demo3 "Lunch").1 none
      { name := "Lunch", start_time := 1200, duration_minutes := 60, info := none }
      (by decide),
    by decide,
    (get_event_info_spec demo3 "Dinner").2.1 (some none) (by decide),
    by decide⟩

/-- Claim C19. `remove_event` never reads through `NULL`: whenever
`find_event_in_day` has returned `SUCCESS` for a name and a day the unlink loop
on the chain of that day stops at an event of that name after skipping fewer
nodes than the chain has; the loop reads through `NULL` only on a chain without
an event of that name. So the only call of `remove_event` without a result is
the one whose day counter overflows, after the name was not found in the day
`INT_MAX`; on a store with fewer than `INT_MAX` days it always returns. -/
theorem unlink_stays_in_chain (c : Calendar) (name : Option String) (n : String)
    (day : Int) (chain : List Event) :
    (remove_event c name = none →
      INT_MAX ≤ c.days ∧
        ∃ m, name = some m ∧ (find_event_in_day c (some m) INT_MAX none).1 ≠ SUCCESS) ∧
    (c.days < INT_MAX → ∃ r, remove_event c name = some r) ∧
    ((find_event_in_day c (some n) day none).1 = SUCCESS →
      ∃ pre e post, slot c (day - 1).toNat = pre ++ e :: post ∧
        (∀ x ∈ pre, x.name ≠ n) ∧ e.name = n ∧
        unlink n (slot c (day - 1).toNat) = some (e, pre ++ post) ∧
        pre.length < (slot c (day - 1).toNat).length) ∧
    (unlink n chain = none ↔ ∀ x ∈ chain, x.name ≠ n) := by
  refine ⟨remove_event_none c name, remove_event_returns c name, ?_, ?_⟩
  · intro h
    obtain ⟨e, he⟩ := find_event_in_day_status c n day h
    obtain ⟨pre, post, h1, h2, h3⟩ := find_in_chain_split n _ e he
    refine ⟨pre, e, post, h1, h3, h2, ?_, ?_⟩
    · rw [h1]
      exact unlink_of_split n pre post e h2 h3
    · rw [h1]
      simp
  · constructor
    · intro hu x hx hxn
      cases hf : find_in_chain n chain with
      | none => exact (find_in_chain_eq_none n chain).1 hf x hx hxn
      | some e =>
        obtain ⟨pre, post, h1, h2, h3⟩ := find_in_chain_split n _ e hf
        rw [h1, unlink_of_split n pre post e h2 h3] at hu
        cases hu
    · intro hno
      induction chain with
      | nil => rfl
      | cons a l ih =>
        have ha : a.name ≠ n := hno a (by simp)
        have hl := ih (fun x hx => hno x (by simp [hx]))
        simp [unlink, ha, hl]

/-- An instance of claim C19 on `demo3`: removing "Lunch" finds it in day 1, and the
unlink loop stops at it after skipping "Standup" and "Review". -/
theorem unlink_stays_in_chain_witness :
    (find_event_in_day demo3 (some "Lunch") 1 none).1 = SUCCESS ∧
    ∃ pre e post, slot demo3 ((1 : Int) - 1).toNat = pre ++ e :: post ∧
      (∀ x ∈ pre, x.name ≠ "Lunch") ∧ e.name = "Lunch" ∧
      unlink "Lunch" (slot demo3 ((1 : Int) - 1).toNat) = some (e, pre ++ post) ∧
      pre.length < (slot demo3 ((1 : Int) - 1).toNat).length :=
  ⟨by decide, (unlink_stays_in_chain demo3 none "Lunch" 1 []).2.2.1 (by decide)⟩

/-- Claim C20. A successful `remove_event` changes one chain only: the chain of the
lowest-numbered day that holds an event of that name loses the first event of
that name, its other events keeping their fields and their order; the chains of
all other days, and `days`, the name, the comparator and the destructor, are
unchanged. -/
theorem remove_event_frame (c : Calendar) (hwf : WF c) (name : Option String)
    (c1 : Calendar) (freed : List Nat)
    (h : remove_event c name = some (SUCCESS, c1, freed)) :
    ∃ L1 pre e post L2, name = some e.name ∧
      c.events = L1 ++ (pre ++ e :: post) :: L2 ∧
      (∀ ch ∈ L1, ∀ x ∈ ch, x.name ≠ e.name) ∧ (∀ x ∈ pre, x.name ≠ e.name) ∧
      c1.events = L1 ++ (pre ++ post) :: L2 ∧
      c1.days = c.days ∧ c1.name = c.name ∧ c1.comp_func = c.comp_func ∧
      c1.free_info_func = c.free_info_func := by
  rcases remove_event_cases_some c hwf name _ h with ⟨hc, _⟩ | hc
  · rw [hc] at h
    cases h
  · obtain ⟨L1, pre, e, post, L2, hn, hL, hL1, hpre, hres⟩ := hc
    rw [hres] at h
    cases h
    exact ⟨L1, pre, e, post, L2, hn, hL, hL1, hpre, rfl, rfl, rfl, rfl, rfl⟩

theorem remove_event_frame_witness :
    WF demo3 ∧ remove_event demo3 (some "Review") = some (SUCCESS, demo4, []) ∧
    ∃ L1 pre e post L2, some "Review" = some e.name ∧
      demo3.events = L1 ++ (pre ++ e :: post) :: L2 ∧
      (∀ ch ∈ L1, ∀ x ∈ ch, x.name ≠ e.name) ∧ (∀ x ∈ pre, x.name ≠ e.name) ∧
      demo4.events = L1 ++ (pre ++ post) :: L2 ∧
      demo4.days = demo3.days ∧ demo4.name = demo3.name ∧
      demo4.comp_func = demo3.comp_func ∧
      demo4.free_info_func = demo3.free_info_func :=
  ⟨wf_demo3, rfl, remove_event_frame demo3 wf_demo3 (some "Review") demo4 [] rfl⟩

end Cal
